import Mathlib

/-!
# Verification of the VibeCI iteration loop and patch engine

This file gives a shallow embedding of the core of the VibeCI backend
(`src/backend/src/services/orchestrator.ts`, `patcher.ts`, `testRunner.ts`,
`database/index.ts`) and proves/refutes the frozen specification claims
about it.

The embedding conventions:

* Pure computations of the TypeScript source are translated into
  executable Lean functions, keeping the source's names where possible.
* The orchestrator's `runTask` performs I/O (database writes, git, the
  Gemini generator, the test runner).  Its control flow over statuses is
  modelled as a pure function from the decisions of the external
  collaborators (whether the generator returned patches on each
  iteration, whether verification passed on each iteration) to the
  ordered list of `updateTaskStatus` calls it makes.  Hard faults of the
  external collaborators (network failures and other thrown exceptions)
  are outside the pure model, with one exception that is part of the
  loop's own logic: the `throw new Error('No previous test result or
  patches to analyze')` in iteration ≥ 2, which is modelled.
* `patcher.ts` delegates unified-diff parsing/application to the npm
  `diff` package (jsdiff).  That library is modelled here (v5 series
  semantics, the series current when this repository was written):
  `parsePatch` / `applyPatch` with default options (`strict` unset,
  `fuzzFactor` 0).  Two corners of jsdiff are deliberately modelled as
  parse failures / left out because no claim (and no theorem below)
  depends on them: a hunk header line starting `@@` that does not match
  the hunk-header pattern produces NaN coordinates in jsdiff (here: a
  parse error; in both cases `applyUnifiedDiff` does not return
  normally with a patched result for the inputs considered in this
  development), and the degenerate rejoin corner where jsdiff would
  append the string "undefined" when its delimiter array is shorter
  than the line array (never reached for the inputs of any theorem
  below, where the delimiter-array invariant is maintained).
-/

namespace VibeCI

/-! ## Task data model (`src/backend/src/types/index.ts`, `database/index.ts`) -/

/-- The `TaskStatus` union from `types/index.ts`. -/
inductive TaskStatus where
  | pending
  | planning
  | generating
  | testing
  | analyzing
  | fixing
  | completed
  | failed
deriving DecidableEq, Repr

/-- A terminal status: `completed` or `failed`. -/
def TaskStatus.isTerminal : TaskStatus → Bool
  | .completed => true
  | .failed => true
  | _ => false

/-- The `Task` interface from `types/index.ts` (the fields the claims are about; the
uuid and ISO timestamps produced by `createTask` are environment inputs
and carry no logic). -/
structure Task where
  description : String
  repoPath : String
  status : TaskStatus
  currentIteration : Nat
  maxIterations : Nat
deriving DecidableEq, Repr

/-- Function `createTask` from `database/index.ts`: inserts a row with status
'pending' and current_iteration 0. -/
def createTask (description : String) (repoPath : String)
    (maxIterations : Nat := 3) : Task :=
  { description := description
    repoPath := repoPath
    status := .pending
    currentIteration := 0
    maxIterations := maxIterations }

/-! ## The iteration loop (`src/backend/src/services/orchestrator.ts`, `runTask`)

One `db.updateTaskStatus(id, status, iteration)` call is recorded as one
`StatusUpdate`.  The loop is driven by two oracles:

* `gen i = true` iff the generator's response for iteration `i` carried a
  nonempty `patches` array (`agentResponse.patches.length > 0`);
* `verify i = true` iff the test run of iteration `i` passed.
-/

/-- One recorded `db.updateTaskStatus` call: the status and the iteration
argument passed with it. -/
abbrev StatusUpdate := TaskStatus × Nat

/-- The two status updates at the head of an iteration of `runTask`'s
`while` loop: first `iteration === 1 ? 'planning' : 'fixing'` at the top
of the loop, then `'planning'` (iteration 1 branch) or `'analyzing'`
(iteration ≥ 2 branch). -/
def iterationPrefix (i : Nat) : List StatusUpdate :=
  if i = 1 then [(.planning, i), (.planning, i)]
  else [(.fixing, i), (.analyzing, i)]

/-- All status updates recorded during one full (non-throwing) loop
iteration `i`: the two head updates, then `('generating', i)` when the
generator returned patches, then `('testing', i)` just before the test
run. -/
def iterBlock (gen : Nat → Bool) (i : Nat) : List StatusUpdate :=
  iterationPrefix i ++ (if gen i then [(.generating, i)] else []) ++ [(.testing, i)]

/-- The `while (iteration < maxIterations)` loop of `runTask`.

Arguments: remaining iteration budget, current value of `iteration`,
whether `lastPatches` is non-null (some earlier iteration had nonempty
patches), current `lastTestResult?.passed`.

Returns: the status updates recorded by the loop, the final value of
`iteration`, the final `lastTestResult?.passed`, and whether the loop
aborted by throwing (`'No previous test result or patches to analyze'`,
thrown in iteration ≥ 2 when no patches were ever produced; the throw
happens after the `'analyzing'` update was recorded). -/
def runTaskLoop (gen verify : Nat → Bool) :
    Nat → Nat → Bool → Option Bool → List StatusUpdate × Nat × Option Bool × Bool
  | 0, i, _, last => ([], i, last, false)
  | rem + 1, i, hasPatches, last =>
    let i' := i + 1
    if i' ≠ 1 ∧ hasPatches = false then
      (iterationPrefix i', i', last, true)
    else
      let hp := hasPatches || gen i'
      if verify i' then (iterBlock gen i', i', some true, false)
      else
        let r := runTaskLoop gen verify rem i' hp (some false)
        (iterBlock gen i' ++ r.1, r.2.1, r.2.2.1, r.2.2.2)

/-- Outcome of one `runTask` run: the full ordered list of
`updateTaskStatus` calls, the final `iteration` value, and the final
status written. -/
structure RunOutcome where
  trace : List StatusUpdate
  finalIteration : Nat
  finalStatus : TaskStatus
deriving DecidableEq, Repr

/-- Function `runTask` from `orchestrator.ts`: records `('planning', 0)` before
the loop, runs the loop, and finally records
`lastTestResult?.passed ? 'completed' : 'failed'` with the current
iteration — or, when the loop threw, records `('failed', iteration)`
from the `catch` block. -/
def runTask (maxIterations : Nat) (gen verify : Nat → Bool) : RunOutcome :=
  let r := runTaskLoop gen verify maxIterations 0 false none
  let finalStatus :=
    if r.2.2.2 then TaskStatus.failed
    else if r.2.2.1 = some true then TaskStatus.completed else TaskStatus.failed
  { trace := ((TaskStatus.planning, 0) :: r.1) ++ [(finalStatus, r.2.1)]
    finalIteration := r.2.1
    finalStatus := finalStatus }

/-- The number of verification runs (`testRunner.runTests` calls) in a
trace: one `'testing'` update is recorded immediately before each call. -/
def verificationCalls (tr : List StatusUpdate) : Nat :=
  (tr.filter (fun u => u.1 = TaskStatus.testing)).length

/-! ### The spec's state machine (modelled from spec §4.4, for comparison) -/

/-- Modelled from the spec: the edge relation of the state machine of
spec §4.4 (`pending -> planning`, `planning -> generating`,
`generating -> testing`, `testing -> completed`, `testing -> analyzing`,
`analyzing -> fixing`, `fixing -> testing`, and every non-terminal state
to `failed`). -/
def specEdge : TaskStatus → TaskStatus → Bool
  | .pending, .planning => true
  | .planning, .generating => true
  | .generating, .testing => true
  | .testing, .completed => true
  | .testing, .analyzing => true
  | .analyzing, .fixing => true
  | .fixing, .testing => true
  | .planning, .failed => true
  | .generating, .failed => true
  | .testing, .failed => true
  | .analyzing, .failed => true
  | .fixing, .failed => true
  | _, _ => false

/-- The edge relation actually realized by the recorded status updates of
`runTask` (derived below, `runTask_trace_chain`). -/
def recordedEdge : TaskStatus → TaskStatus → Bool
  | .planning, .planning => true
  | .planning, .generating => true
  | .planning, .testing => true
  | .generating, .testing => true
  | .testing, .fixing => true
  | .fixing, .analyzing => true
  | .analyzing, .generating => true
  | .analyzing, .testing => true
  | .testing, .completed => true
  | .testing, .failed => true
  | .planning, .failed => true
  | .analyzing, .failed => true
  | _, _ => false

/-! ## String helpers

Plain character-list implementations of the JavaScript string operations
used by the sources, so that every definition evaluates by kernel
reduction. -/

/-- Prefix test on character lists (JS `String.prototype.startsWith`). -/
def listPrefix : List Char → List Char → Bool
  | [], _ => true
  | _ :: _, [] => false
  | a :: as, b :: bs => a = b && listPrefix as bs

/-- JS `String.prototype.startsWith`. -/
def sStarts (s pre : String) : Bool := listPrefix pre.toList s.toList

/-- JS `String.prototype.endsWith`. -/
def sEnds (s suf : String) : Bool := listPrefix suf.toList.reverse s.toList.reverse

/-- JS `String.prototype.slice(n)` / `substr(n)` for a nonnegative index. -/
def sDrop (s : String) (n : Nat) : String := String.mk (s.toList.drop n)

/-- Substring search on character lists. -/
def listContains (sub : List Char) : List Char → Bool
  | [] => listPrefix sub []
  | c :: cs => listPrefix sub (c :: cs) || listContains sub cs

/-- JS `String.prototype.includes`. -/
def sContains (s sub : String) : Bool := listContains sub.toList s.toList

/-- The character class of the JS regex `\s` (also the set trimmed by JS
`String.prototype.trim`). -/
def isJsSpace (c : Char) : Bool :=
  c = ' ' || c = '\t' || c = '\n' || c = '\x0b' || c = '\x0c' || c = '\r' ||
  c = ' ' || c = ' ' || (' ' ≤ c && c ≤ ' ') ||
  c = ' ' || c = ' ' || c = ' ' || c = ' ' ||
  c = '　' || c = '﻿'

/-- JS `String.prototype.trim`. -/
def jsTrim (s : String) : String :=
  String.mk (((s.toList.dropWhile isJsSpace).reverse.dropWhile isJsSpace).reverse)

/-- JS `str.split('\n')` (literal separator, as used by
`extractNewContent` and `extractErrors`). -/
def splitNlAux : List Char → List Char → List String
  | [], acc => [String.mk acc.reverse]
  | '\n' :: rest, acc => String.mk acc.reverse :: splitNlAux rest []
  | c :: rest, acc => splitNlAux rest (c :: acc)

/-- JS `str.split('\n')`. -/
def splitNl (s : String) : List String := splitNlAux s.toList []

/-- JS `arr.join('\n')`. -/
def joinNl : List String → String
  | [] => ""
  | [l] => l
  | l :: rest => l ++ "\n" ++ joinNl rest

/-! ## Model of the jsdiff library (npm `diff`, v5 series)

`patcher.ts` calls `diff.parsePatch(diffText)` and
`diff.applyPatch(originalContent, patches[0])` with default options
(`strict` unset, `fuzzFactor = 0`).  Both functions split their input on
the regex `/\r\n|[\n\v\f\r\x85]/`, keeping the matched delimiters. -/

/-- A character the jsdiff splitter treats as a single-character line
delimiter: `[\n\v\f\r\x85]`. -/
def isSingleDelim (c : Char) : Bool :=
  c = '\n' || c = '\x0b' || c = '\x0c' || c = '\r' || c = '\u0085'

/-- jsdiff's `str.split(/\r\n|[\n\v\f\r\x85]/)` together with
`str.match(/\r\n|[\n\v\f\r\x85]/g) || []`: the line list and the
delimiter list (`delims[i]` is the delimiter after line `i`;
`delims.length = lines.length - 1`). -/
def splitDelimsAux : List Char → List Char → List String × List String
  | [], acc => ([String.mk acc.reverse], [])
  | [c], acc =>
    if isSingleDelim c then
      (String.mk acc.reverse :: [String.mk []], [String.mk [c]])
    else
      ([String.mk (c :: acc).reverse], [])
  | c :: c2 :: rest, acc =>
    if c = '\r' && c2 = '\n' then
      let r := splitDelimsAux rest []
      (String.mk acc.reverse :: r.1, "\r\n" :: r.2)
    else if isSingleDelim c then
      let r := splitDelimsAux (c2 :: rest) []
      (String.mk acc.reverse :: r.1, String.mk [c] :: r.2)
    else
      splitDelimsAux (c2 :: rest) (c :: acc)

/-- The jsdiff line list of a string. -/
def jsLines (s : String) : List String := (splitDelimsAux s.toList []).1

/-- The jsdiff delimiter list of a string. -/
def jsDelims (s : String) : List String := (splitDelimsAux s.toList []).2

/-- Greedy `\d+` at the head of the input: its value and the rest.
(Adjacent regex tokens in all patterns modelled here are over disjoint
character classes, so greedy matching without backtracking is exact.) -/
def takeDigits (cs : List Char) : Option (Nat × List Char) :=
  let ds := cs.takeWhile Char.isDigit
  if ds.isEmpty then none
  else some (ds.foldl (fun n c => n * 10 + (c.toNat - '0'.toNat)) 0,
             cs.dropWhile Char.isDigit)

/-- Greedy `\s+` at the head of the input. -/
def takeSpaces (cs : List Char) : Option (List Char) :=
  let ss := cs.takeWhile isJsSpace
  if ss.isEmpty then none else some (cs.dropWhile isJsSpace)

/-- A literal at the head of the input. -/
def takeLit : List Char → List Char → Option (List Char)
  | [], cs => some cs
  | _ :: _, [] => none
  | l :: ls, c :: cs => if c = l then takeLit ls cs else none

/-- Leftmost match of an anchored matcher, as JS regex search does:
try every start position left to right. -/
def firstMatch {α : Type} (m : List Char → Option α) : List Char → Option α
  | [] => m []
  | c :: cs =>
    match m (c :: cs) with
    | some a => some a
    | none => firstMatch m cs

/-- The optional group `(?:,(\d+))?` of the hunk-header regex. -/
def takeOptCommaNum (cs : List Char) : Option Nat × List Char :=
  match cs with
  | ',' :: rest =>
    match takeDigits rest with
    | some (n, r) => (some n, r)
    | none => (none, cs)
  | _ => (none, cs)

/-- The hunk-header regex `@@ -(\d+)(?:,(\d+))? \+(\d+)(?:,(\d+))? @@`,
anchored at the head of the input. -/
def matchHunkHeaderAt (cs : List Char) : Option (Nat × Option Nat × Nat × Option Nat) := do
  let r0 ← takeLit "@@ -".toList cs
  let (o, r1) ← takeDigits r0
  let (ol, r2) := takeOptCommaNum r1
  let r3 ← takeLit " +".toList r2
  let (n, r4) ← takeDigits r3
  let (nl, r5) := takeOptCommaNum r4
  let _ ← takeLit " @@".toList r5
  pure (o, ol, n, nl)

/-- A parsed hunk, as produced by jsdiff's `parseHunk` (`lines` holds the
raw body lines including their `+`/`-`/space prefix; `linedelimiters[j]`
is the delimiter that followed body line `j` in the diff text, defaulted
to `"\n"`). -/
structure Hunk where
  oldStart : Int
  oldLines : Int
  newStart : Int
  newLines : Int
  lines : List String
  linedelimiters : List String
deriving DecidableEq, Repr

/-- A parsed patch (jsdiff `parsePatch` index entry); only `hunks` is
consumed by `applyPatch`. -/
structure ParsedPatch where
  hunks : List Hunk
deriving DecidableEq, Repr

/-- The test `/^(\-\-\-|\+\+\+|@@)\s/` ending jsdiff's diff-metadata
loop. -/
def isMetadataBreak (l : String) : Bool :=
  match l.toList with
  | '-' :: '-' :: '-' :: c :: _ => isJsSpace c
  | '+' :: '+' :: '+' :: c :: _ => isJsSpace c
  | '@' :: '@' :: c :: _ => isJsSpace c
  | _ => false

/-- The test `/^(---|\+\+\+)\s+(.*)$/` of jsdiff's `parseFileHeader`. -/
def isFileHeaderLine (l : String) : Bool :=
  match l.toList with
  | '-' :: '-' :: '-' :: c :: _ => isJsSpace c
  | '+' :: '+' :: '+' :: c :: _ => isJsSpace c
  | _ => false

/-- The test
`/^(Index:\s|diff\s|\-\-\-\s|\+\+\+\s|===================================================================)/`
ending jsdiff's hunks loop. -/
def isHunksBreak (l : String) : Bool :=
  match l.toList with
  | 'I' :: 'n' :: 'd' :: 'e' :: 'x' :: ':' :: c :: _ => isJsSpace c
  | 'd' :: 'i' :: 'f' :: 'f' :: c :: _ => isJsSpace c
  | '-' :: '-' :: '-' :: c :: _ => isJsSpace c
  | '+' :: '+' :: '+' :: c :: _ => isJsSpace c
  | _ => sStarts l (String.mk (List.replicate 67 '='))

/-- jsdiff's diff-metadata loop: skip lines until one matches
`isMetadataBreak` (leading non-diff content is consumed silently). -/
def skipMetadata : List String → List String → List String × List String
  | [], ds => ([], ds)
  | l :: ls, ds =>
    if isMetadataBreak l then (l :: ls, ds)
    else skipMetadata ls (ds.tailD [])

/-- jsdiff's `parseFileHeader`: consume the current line when it is a
`---`/`+++` file header. -/
def consumeFileHeader : List String × List String → List String × List String
  | ([], ds) => ([], ds)
  | (l :: ls, ds) =>
    if isFileHeaderLine l then (ls, ds.tailD []) else (l :: ls, ds)

/-- The body-line loop of jsdiff's `parseHunk`: consume
`+`/`-`/space/`\`-prefixed lines (an empty line that is not the final
line counts as a context line), stopping at the `--- / +++ / @@`
next-file lookahead or at any other line.  Returns the consumed
`(line, delimiter)` pairs, the add and remove counts, and the rest. -/
def parseHunkBody : List String → List String →
    List (String × String) × Nat × Nat × List String × List String
  | [], ds => ([], 0, 0, [], ds)
  | l :: ls, ds =>
    if sStarts l "--- " &&
        (match ls with
         | a :: b :: _ => sStarts a "+++ " && sStarts b "@@"
         | _ => false) then
      ([], 0, 0, l :: ls, ds)
    else if l = "" ∧ ls = [] then
      -- `diffstr[i][0]` of the final empty line is `undefined`: stop
      ([], 0, 0, l :: ls, ds)
    else
      let op := l.toList.headD ' '
      if op = '+' ∨ op = '-' ∨ op = ' ' ∨ op = '\\' then
        let d := ds.headD "\n"
        let r := parseHunkBody ls (ds.tailD [])
        ((l, d) :: r.1,
         r.2.1 + (if op = '+' ∨ op = ' ' then 1 else 0),
         r.2.2.1 + (if op = '-' ∨ op = ' ' then 1 else 0),
         r.2.2.2)
      else
        ([], 0, 0, l :: ls, ds)

/-- jsdiff's `parseHunk`, applied to the `@@` header line `l` and the
rest of the input.  Fails (`none`) when the header line does not match
the hunk-header regex; jsdiff itself would build a hunk with NaN
coordinates there, which never yields a normally patched result for the
inputs considered in this development (see the header comment). -/
def parseHunk (l : String) (ls ds : List String) :
    Option Hunk × List String × List String :=
  match firstMatch matchHunkHeaderAt l.toList with
  | none => (none, ls, ds.tailD [])
  | some (o, olOpt, n, nlOpt) =>
    let oldLines0 : Int := (olOpt.getD 1 : Nat)
    let newLines0 : Int := (nlOpt.getD 1 : Nat)
    let oldStart0 : Int := if oldLines0 = 0 then (o : Int) + 1 else (o : Int)
    let newStart0 : Int := if newLines0 = 0 then (n : Int) + 1 else (n : Int)
    let body := parseHunkBody ls (ds.tailD [])
    let addCount := body.2.1
    let removeCount := body.2.2.1
    let newLines := if addCount = 0 ∧ newLines0 = 1 then 0 else newLines0
    let oldLines := if removeCount = 0 ∧ oldLines0 = 1 then 0 else oldLines0
    (some { oldStart := oldStart0, oldLines := oldLines,
            newStart := newStart0, newLines := newLines,
            lines := body.1.map Prod.fst,
            linedelimiters := body.1.map Prod.snd },
     body.2.2.2)

/-- jsdiff's hunks loop within `parseIndex` (non-strict mode: an empty
line is skipped; a nonempty line that is neither a break nor a `@@` line
throws `Unknown line`). -/
def parseHunksLoop : Nat → List String → List String →
    Except String (List Hunk × List String × List String)
  | 0, ls, ds => .ok ([], ls, ds)
  | _ + 1, [], ds => .ok ([], [], ds)
  | fuel + 1, l :: ls, ds =>
    if isHunksBreak l then .ok ([], l :: ls, ds)
    else if sStarts l "@@" then
      match parseHunk l ls ds with
      | (none, _, _) => .error "malformed hunk header"
      | (some h, rls, rds) =>
        match parseHunksLoop fuel rls rds with
        | .ok (hs, rls2, rds2) => .ok (h :: hs, rls2, rds2)
        | .error e => .error e
    else if l ≠ "" then .error "Unknown line"
    else parseHunksLoop fuel ls (ds.tailD [])

/-- jsdiff's `parseIndex`: metadata skip, two optional file headers, then
the hunks loop. -/
def parseIndexFn (ls ds : List String) :
    Except String (ParsedPatch × List String × List String) :=
  let m := skipMetadata ls ds
  let h := consumeFileHeader (consumeFileHeader m)
  match parseHunksLoop (h.1.length + 1) h.1 h.2 with
  | .ok (hs, rls, rds) => .ok (⟨hs⟩, rls, rds)
  | .error e => .error e

/-- The outer `while (i < diffstr.length) parseIndex()` loop of
`parsePatch`. -/
def parsePatchLoop : Nat → List String → List String →
    Except String (List ParsedPatch)
  | 0, _, _ => .ok []
  | _ + 1, [], _ => .ok []
  | fuel + 1, l :: ls, ds =>
    match parseIndexFn (l :: ls) ds with
    | .error e => .error e
    | .ok (p, rls, rds) =>
      match parsePatchLoop fuel rls rds with
      | .ok ps => .ok (p :: ps)
      | .error e => .error e

/-- jsdiff's `parsePatch` (default options), as an `Except` capturing its
throws. -/
def parsePatchE (diffText : String) : Except String (List ParsedPatch) :=
  parsePatchLoop (jsLines diffText).length (jsLines diffText) (jsDelims diffText)

/-- Lookup `lines[toPos]` for a JS (possibly negative) index. -/
def lineAt (lines : List String) (i : Int) : Option String :=
  if i < 0 then none else lines.get? i.toNat

/-- jsdiff `applyPatch`'s `hunkFits` with `fuzzFactor = 0`: every
context/removed body line must literally equal the source line at the
running position (an out-of-range position compares unequal). -/
def hunkFits (lines : List String) : List String → Int → Bool
  | [], _ => true
  | l :: rest, toPos =>
    let op := l.toList.headD ' '
    let content := sDrop l 1
    if op = ' ' ∨ op = '-' then
      (match lineAt lines toPos with
       | some s => s = content
       | none => false) && hunkFits lines rest (toPos + 1)
    else
      hunkFits lines rest toPos

/-- The offset sequence of jsdiff's `distanceIterator(start, minLine,
maxLine)`: `+1, -1, +2, -2, …`, with each direction dropped once it
leaves its bound (both bounds are downward closed, so generating both
directions per distance and filtering is the same sequence). -/
def offsetCandidates (start minLine maxLine : Int) : List Int :=
  let fwd := (maxLine - start).toNat
  let bwd := (start - minLine).toNat
  (List.range (max fwd bwd)).flatMap (fun j =>
    let k : Int := (j : Int) + 1
    (if k ≤ maxLine - start then [k] else []) ++
    (if minLine ≤ start - k then [-k] else []))

/-- The offset-search loop of jsdiff's `applyPatch`: each hunk is placed
at the first offset (starting with the initial `localOffset = 0`, then
the distance-iterator sequence) where it fits; `minLine` forbids placing
a hunk before the end of the previous one.  Returns `none` when some
hunk fits nowhere (`applyPatch` returns `false`). -/
def findHunkOffsets (lines : List String) :
    List Hunk → Int → Int → Option (List (Hunk × Int))
  | [], _, _ => some []
  | h :: hs, offset, minLine =>
    let maxLine : Int := (lines.length : Int) - h.oldLines
    let toPos : Int := offset + h.oldStart - 1
    match (0 :: offsetCandidates toPos minLine maxLine).find?
        (fun lo => hunkFits lines h.lines (toPos + lo)) with
    | none => none
    | some lo =>
      let hoff := offset + lo
      match findHunkOffsets lines hs hoff (hoff + h.oldStart + h.oldLines) with
      | none => none
      | some rest => some ((h, hoff) :: rest)

/-- JS `Array.prototype.splice` start-index normalization. -/
def jsSpliceIndex (len : Nat) (pos : Int) : Nat :=
  if pos < 0 then ((len : Int) + pos).toNat else min pos.toNat len

/-- JS `arr.splice(pos, 1)`. -/
def jsSpliceRemove (ls : List String) (pos : Int) : List String :=
  let k := jsSpliceIndex ls.length pos
  ls.take k ++ ls.drop (k + 1)

/-- JS `arr.splice(pos, 0, x)`. -/
def jsSpliceInsert (ls : List String) (pos : Int) (x : String) : List String :=
  let k := jsSpliceIndex ls.length pos
  ls.take k ++ x :: ls.drop k

/-- The body loop of jsdiff `applyPatch`'s hunk application: walk the
hunk's raw lines, advancing on context lines, splicing out removed lines
and splicing in added lines (with their recorded delimiters), and
setting the EOFNL flags on `\`-prefixed lines according to the previous
raw line's first character. -/
def applyHunkBody (lines delims : List String) (toPos : Int)
    (rEOF aEOF : Bool) (prev : Option Char) :
    List (String × String) → List String × List String × Bool × Bool
  | [] => (lines, delims, rEOF, aEOF)
  | (l, d) :: rest =>
    let op := l.toList.headD ' '
    let content := sDrop l 1
    let prev' : Option Char := if l = "" then none else some op
    if op = ' ' then
      applyHunkBody lines delims (toPos + 1) rEOF aEOF prev' rest
    else if op = '-' then
      applyHunkBody (jsSpliceRemove lines toPos) (jsSpliceRemove delims toPos)
        toPos rEOF aEOF prev' rest
    else if op = '+' then
      applyHunkBody (jsSpliceInsert lines toPos content)
        (jsSpliceInsert delims toPos d) (toPos + 1) rEOF aEOF prev' rest
    else if op = '\\' then
      let rEOF' := rEOF || (prev == some '+')
      let aEOF' := aEOF || (prev == some '-')
      applyHunkBody lines delims toPos rEOF' aEOF' prev' rest
    else
      applyHunkBody lines delims toPos rEOF aEOF prev' rest

/-- The hunk-application loop of jsdiff's `applyPatch`: apply each hunk at
`oldStart + offset + diffOffset - 1`, accumulating `diffOffset` by
`newLines - oldLines`. -/
def applyHunksLoop : List (Hunk × Int) → Int → List String → List String →
    Bool → Bool → List String × List String × Bool × Bool
  | [], _, lines, delims, r, a => (lines, delims, r, a)
  | (h, hoff) :: hs, diffOffset, lines, delims, r, a =>
    let toPos := h.oldStart + hoff + diffOffset - 1
    let body := applyHunkBody lines delims toPos r a none
      (h.lines.zip h.linedelimiters)
    applyHunksLoop hs (diffOffset + h.newLines - h.oldLines)
      body.1 body.2.1 body.2.2.1 body.2.2.2

/-- jsdiff's `removeEOFNL` handling: pop trailing empty lines (with their
delimiters). -/
def popTrailingEmpties (lines delims : List String) : List String × List String :=
  let k := (lines.reverse.takeWhile (fun l => l = "")).length
  (lines.take (lines.length - k), delims.take (delims.length - k))

/-- The final rejoin of jsdiff's `applyPatch`: `lines[k] + delimiters[k]`
for every non-final line, then `join('')`. -/
def joinWithDelims : List String → List String → String
  | [], _ => ""
  | [l], _ => l
  | l :: rest, ds => l ++ ds.headD "" ++ joinWithDelims rest (ds.tailD [])

/-- jsdiff's `applyPatch(source, patch)` with default options.  `none` is
jsdiff's `false` return (content mismatch). -/
def applyPatchJs (source : String) (p : ParsedPatch) : Option String :=
  let lines := jsLines source
  let delims := jsDelims source
  match findHunkOffsets lines p.hunks 0 0 with
  | none => none
  | some hoffs =>
    let r := applyHunksLoop hoffs 0 lines delims false false
    let fin :=
      if r.2.2.1 then popTrailingEmpties r.1 r.2.1
      else if r.2.2.2 then (r.1 ++ [""], r.2.1 ++ ["\n"])
      else (r.1, r.2.1)
    some (joinWithDelims fin.1 fin.2)

/-! ## The patcher service (`src/backend/src/services/patcher.ts`) -/

/-- The `Patch` interface from `types/index.ts`. -/
structure Patch where
  file : String
  diff : String
deriving DecidableEq, Repr

/-- Function `applyUnifiedDiff` from `patcher.ts`: parse the diff, return the
original on zero parsed patches, apply the first patch, and throw when
`applyPatch` returns `false` (or when `parsePatch` throws). -/
def applyUnifiedDiffE (originalContent diffText : String) : Except String String :=
  match parsePatchE diffText with
  | .error e => .error e
  | .ok [] => .ok originalContent
  | .ok (p :: _) =>
    match applyPatchJs originalContent p with
    | none => .error "Failed to apply patch - content mismatch"
    | some r => .ok r

/-- Whether a line carries a diff marker, as tested by
`extractNewContent`'s `hasAnyDiffMarkers` loop. -/
def hasDiffMarker (l : String) : Bool :=
  sStarts l "@@" || sStarts l "---" || sStarts l "+++"

/-- The per-line reconstruction loop of `extractNewContent` (the
diff-markers branch): skip headers, enter a hunk at `@@`, then keep
`+`/space lines stripped of their prefix, drop `-` lines, keep empty
lines and unprefixed lines. -/
def extractDiffLines : List String → Bool → List String
  | [], _ => []
  | l :: ls, inHunk =>
    if sStarts l "---" ∨ sStarts l "+++" then extractDiffLines ls inHunk
    else if sStarts l "@@" then extractDiffLines ls true
    else if !inHunk then extractDiffLines ls inHunk
    else if sStarts l "+" then sDrop l 1 :: extractDiffLines ls true
    else if sStarts l "-" then extractDiffLines ls true
    else if sStarts l " " then sDrop l 1 :: extractDiffLines ls true
    else if l = "" then "" :: extractDiffLines ls true
    else l :: extractDiffLines ls true

/-- Function `extractNewContent` from `patcher.ts`: with no diff markers anywhere,
treat the text as raw replacement content (code fences stripped,
trimmed), falling back to the original when that is empty; with markers,
reconstruct from the diff lines, falling back to the original when
nothing was extracted, and restore a trailing newline the original
had. -/
def extractNewContent (diffText originalContent : String) : String :=
  let lines := splitNl diffText
  let hasAnyDiffMarkers := lines.any hasDiffMarker
  if !hasAnyDiffMarkers then
    let cleaned := jsTrim (joinNl (lines.filter (fun l => !sStarts l "```")))
    if cleaned.length > 0 then cleaned else originalContent
  else
    let newLines := extractDiffLines lines false
    if newLines = [] then originalContent
    else
      let result := joinNl newLines
      if sEnds originalContent "\n" && !sEnds result "\n" then result ++ "\n"
      else result

/-- The content transformation of `applyPatchToFile` from `patcher.ts`:
try `applyUnifiedDiff`, and on any throw fall back to
`extractNewContent`.  (The surrounding directory creation and
read/write of the file are I/O; the file's prior content is
`originalContent`, the empty string for an absent file.) -/
def applyPatchToFileContent (originalContent diffText : String) : String :=
  match applyUnifiedDiffE originalContent diffText with
  | .ok newContent => newContent
  | .error _ => extractNewContent diffText originalContent

/-- Function `applyPatches` from `patcher.ts`, abstracted over the effect of one
`applyPatchToFile` call on the workspace state `σ` (file I/O can throw:
`Except ε`).  Each patch is attempted in order inside its own
`try/catch`; the file name is appended to `applied` on success and to
`failed` on an exception, and the loop always continues.  Returns the
final state with the `applied` and `failed` lists. -/
def applyPatchesFold {σ ε : Type} (step : σ → Patch → Except ε σ) :
    σ → List Patch → σ × List String × List String
  | s, [] => (s, [], [])
  | s, p :: ps =>
    match step s p with
    | .ok s' =>
      let r := applyPatchesFold step s' ps
      (r.1, p.file :: r.2.1, r.2.2)
    | .error _ =>
      let r := applyPatchesFold step s ps
      (r.1, r.2.1, p.file :: r.2.2)

/-! ### The spec's PatchEngine contract (modelled from spec §4.1, for comparison) -/

/-- The old-file side of a hunk's body lines: contents of context and
removed lines (what the hunk expects to find in the prior content). -/
def oldSide (hl : List String) : List String :=
  hl.filterMap (fun l =>
    if l.toList.headD ' ' = ' ' ∨ l.toList.headD ' ' = '-' then some (sDrop l 1)
    else none)

/-- The new-file side of a hunk's body lines: contents of context and
added lines (what the hunk produces). -/
def newSide (hl : List String) : List String :=
  hl.filterMap (fun l =>
    if l.toList.headD ' ' = ' ' ∨ l.toList.headD ' ' = '+' then some (sDrop l 1)
    else none)

/-- A plain hunk body line: nonempty and prefixed by space, `-` or `+`
(no backslash continuation, no empty line). -/
def goodHunkLine (l : String) : Bool :=
  !(l == "") && (l.toList.headD ' ' == ' ' || l.toList.headD ' ' == '-' ||
    l.toList.headD ' ' == '+')

/-- Modelled from the spec: the textbook result of applying a clean
single-hunk unified diff to `c` — the lines before the hunk's stated
start, then the hunk's new side (context and added lines), then the
lines after the replaced span, joined by newlines (spec §4.1 step 1:
removed lines deleted, added lines inserted, context lines required to
match `priorContent` at the stated offset). -/
def textbookApply (c : String) (oldStart : Nat) (hl : List String) : String :=
  let lines := jsLines c
  joinNl ((lines.take (oldStart - 1)) ++ newSide hl ++
    (lines.drop (oldStart - 1 + (oldSide hl).length)))

/-! ## The test runner (`src/backend/src/services/testRunner.ts`) -/

/-- A matcher for the count regexes `(\d+)\s+passed`, `(\d+)\s+failed`
and `(\d+)\s+total`, anchored at the head of the input: digits, then
whitespace, then the given literal word. -/
def matchCountAt (word : List Char) (cs : List Char) : Option Nat := do
  let (n, r1) ← takeDigits cs
  let r2 ← takeSpaces r1
  let _ ← takeLit word r2
  pure n

/-- A matcher for the Jest summary regex
`Tests:\s+(\d+)\s+failed,\s+(\d+)\s+passed,\s+(\d+)\s+total`, anchored
at the head of the input; yields `(failed, passed, total)`. -/
def matchSummaryAt (cs : List Char) : Option (Nat × Nat × Nat) := do
  let r0 ← takeLit "Tests:".toList cs
  let r1 ← takeSpaces r0
  let (f, r2) ← takeDigits r1
  let r3 ← takeSpaces r2
  let r4 ← takeLit "failed,".toList r3
  let r5 ← takeSpaces r4
  let (p, r6) ← takeDigits r5
  let r7 ← takeSpaces r6
  let r8 ← takeLit "passed,".toList r7
  let r9 ← takeSpaces r8
  let (t, r10) ← takeDigits r9
  let r11 ← takeSpaces r10
  let _ ← takeLit "total".toList r11
  pure (f, p, t)

/-- The three counts `parseJestOutput` reports. -/
structure JestStats where
  total : Nat
  passed : Nat
  failed : Nat
deriving DecidableEq, Repr

/-- Function `parseJestOutput` from `testRunner.ts`: first the combined
`Tests: N failed, M passed, K total` summary line; otherwise the
independently matched `N passed` / `N failed` / `N total` substrings,
with `total` defaulting to `passed + failed` when no `total` substring
matches. -/
def parseJestOutput (output : String) : JestStats :=
  let cs := output.toList
  match firstMatch matchSummaryAt cs with
  | some (f, p, t) => { total := t, passed := p, failed := f }
  | none =>
    let passed := (firstMatch (matchCountAt "passed".toList) cs).getD 0
    let failed := (firstMatch (matchCountAt "failed".toList) cs).getD 0
    match firstMatch (matchCountAt "total".toList) cs with
    | some t => { total := t, passed := passed, failed := failed }
    | none => { total := passed + failed, passed := passed, failed := failed }

/-- One step of the error-grouping loop of `extractErrors`: state is
(collected errors, current error, inError flag). -/
def extractErrorsStep (st : List String × String × Bool) (line : String) :
    List String × String × Bool :=
  let errors := st.1
  let currentError := st.2.1
  let inError := st.2.2
  if sContains line "FAIL" || sContains line "● " then
    let errors := if currentError ≠ "" then errors ++ [jsTrim currentError] else errors
    (errors, line, true)
  else if inError then
    if jsTrim line = "" ∧ currentError ≠ "" then
      (errors ++ [jsTrim currentError], "", false)
    else
      (errors, currentError ++ "\n" ++ line, inError)
  else
    (errors, currentError, inError)

/-- Function `extractErrors` from `testRunner.ts`: group consecutive
lines starting at a `FAIL`/`●` marker until a blank line, trim each
group, keep the first 5. -/
def extractErrors (output : String) : List String :=
  let r := (splitNl output).foldl extractErrorsStep ([], "", false)
  let errors := if r.2.1 ≠ "" then r.1 ++ [jsTrim r.2.1] else r.1
  errors.take 5

/-- The `TestResult` interface from `types/index.ts` (without `duration`,
which is wall-clock time). -/
structure TestResultM where
  passed : Bool
  totalTests : Nat
  passedTests : Nat
  failedTests : Nat
  output : String
  errors : List String
deriving DecidableEq, Repr

/-- The result interpretation in the `close` handler of `runTests`
(`testRunner.ts` lines 88–105): `passed` is `code === 0`, the counts
come from `parseJestOutput` on the combined output, and errors are
extracted only for a non-zero exit code. -/
def runTestsOnClose (stdout stderr : String) (code : Int) : TestResultM :=
  let output := stdout ++ stderr
  let stats := parseJestOutput output
  { passed := code == 0
    totalTests := stats.total
    passedTests := stats.passed
    failedTests := stats.failed
    output := output
    errors := if code ≠ 0 then extractErrors output else [] }

/-! ## Lemmas about the iteration loop -/

theorem verificationCalls_append (a b : List StatusUpdate) :
    verificationCalls (a ++ b) = verificationCalls a + verificationCalls b := by
  simp [verificationCalls, List.filter_append]

theorem iterationPrefix_snd (i : Nat) : ∀ u ∈ iterationPrefix i, u.2 = i := by
  unfold iterationPrefix
  split <;> simp

theorem iterationPrefix_not_terminal (i : Nat) :
    ∀ u ∈ iterationPrefix i, u.1.isTerminal = false := by
  unfold iterationPrefix
  split <;> simp [TaskStatus.isTerminal]

theorem verificationCalls_iterBlock (gen : Nat → Bool) (i : Nat) :
    verificationCalls (iterBlock gen i) = 1 := by
  unfold iterBlock iterationPrefix verificationCalls
  rcases gen i <;> split <;> simp

theorem iterBlock_snd (gen : Nat → Bool) (i : Nat) :
    ∀ u ∈ iterBlock gen i, u.2 = i := by
  unfold iterBlock iterationPrefix
  rcases gen i <;> split <;> simp

theorem iterBlock_not_terminal (gen : Nat → Bool) (i : Nat) :
    ∀ u ∈ iterBlock gen i, u.1.isTerminal = false := by
  unfold iterBlock iterationPrefix
  rcases gen i <;> split <;> simp [TaskStatus.isTerminal]

/-- The loop with `lastPatches` set and an always-failing verifier runs
its whole remaining budget: one verification per remaining iteration,
final iteration `i + rem`, no throw. -/
theorem runTaskLoop_allFail (gen : Nat → Bool) :
    ∀ (rem i : Nat),
      (runTaskLoop gen (fun _ => false) rem i true (some false)).2.1 = i + rem ∧
      (runTaskLoop gen (fun _ => false) rem i true (some false)).2.2.1 = some false ∧
      (runTaskLoop gen (fun _ => false) rem i true (some false)).2.2.2 = false ∧
      verificationCalls (runTaskLoop gen (fun _ => false) rem i true (some false)).1 = rem := by
  intro rem
  induction rem with
  | zero => intro i; simp [runTaskLoop, verificationCalls]
  | succ rem ih =>
    intro i
    have h1 : ¬(i + 1 ≠ 1 ∧ true = false) := by simp
    have h2 := ih (i + 1)
    simp only [runTaskLoop, if_neg h1, Bool.true_or, if_neg (Bool.false_ne_true)]
    refine ⟨by rw [h2.1]; omega, h2.2.1, h2.2.2.1, ?_⟩
    rw [verificationCalls_append, verificationCalls_iterBlock, h2.2.2.2]
    omega

/-- The loop with `lastPatches` set, where the first passing verification
after iteration `i` is at iteration `k ≤ i + rem`, stops at iteration
`k` with `lastTestResult.passed = true`, having verified `k - i` times,
and records no update for an iteration beyond `k`. -/
theorem runTaskLoop_firstPass (gen verify : Nat → Bool) :
    ∀ (rem i k : Nat), i < k → k ≤ i + rem →
      verify k = true → (∀ j, i < j → j < k → verify j = false) →
      (runTaskLoop gen verify rem i true (some false)).2.1 = k ∧
      (runTaskLoop gen verify rem i true (some false)).2.2.1 = some true ∧
      (runTaskLoop gen verify rem i true (some false)).2.2.2 = false ∧
      verificationCalls (runTaskLoop gen verify rem i true (some false)).1 = k - i ∧
      ∀ u ∈ (runTaskLoop gen verify rem i true (some false)).1, u.2 ≤ k := by
  intro rem
  induction rem with
  | zero => intro i k h1 h2; omega
  | succ rem ih =>
    intro i k h1 h2 hk hfirst
    have hno : ¬(i + 1 ≠ 1 ∧ true = false) := by simp
    simp only [runTaskLoop, if_neg hno, Bool.true_or]
    by_cases hik : k = i + 1
    · subst hik
      rw [if_pos hk]
      refine ⟨rfl, rfl, rfl, ?_, ?_⟩
      · rw [verificationCalls_iterBlock]; omega
      · intro u hu
        exact le_of_eq (iterBlock_snd gen _ u hu)
    · have hv : verify (i + 1) = false := hfirst (i + 1) (by omega) (by omega)
      rw [if_neg (by simp [hv])]
      have h3 := ih (i + 1) k (by omega) (by omega) hk
        (fun j hj1 hj2 => hfirst j (by omega) hj2)
      refine ⟨h3.1, h3.2.1, h3.2.2.1, ?_, ?_⟩
      · rw [verificationCalls_append, verificationCalls_iterBlock, h3.2.2.2.1]
        omega
      · intro u hu
        rcases List.mem_append.mp hu with hu | hu
        · have := iterBlock_snd gen _ u hu; omega
        · exact h3.2.2.2.2 u hu

/-- If the loop ends with `lastTestResult.passed = true` and was not
entered with it, the verification at the final iteration passed and that
iteration lies in `(i, i + rem]`. -/
theorem runTaskLoop_completed (gen verify : Nat → Bool) :
    ∀ (rem i : Nat) (hp : Bool) (last : Option Bool), last ≠ some true →
      (runTaskLoop gen verify rem i hp last).2.2.1 = some true →
      verify (runTaskLoop gen verify rem i hp last).2.1 = true ∧
      i < (runTaskLoop gen verify rem i hp last).2.1 ∧
      (runTaskLoop gen verify rem i hp last).2.1 ≤ i + rem := by
  intro rem
  induction rem with
  | zero =>
    intro i hp last hlast h
    simp only [runTaskLoop] at h
    exact absurd h hlast
  | succ rem ih =>
    intro i hp last hlast h
    simp only [runTaskLoop] at h ⊢
    by_cases hthrow : i + 1 ≠ 1 ∧ hp = false
    · rw [if_pos hthrow] at h ⊢
      exact absurd h hlast
    · rw [if_neg hthrow] at h ⊢
      by_cases hv : verify (i + 1) = true
      · rw [if_pos hv] at h ⊢
        refine ⟨hv, ?_, ?_⟩
        · show i < i + 1
          omega
        · show i + 1 ≤ i + (rem + 1)
          omega
      · rw [if_neg hv] at h ⊢
        obtain ⟨ha, hb, hc⟩ := ih (i + 1) (hp || gen (i + 1)) (some false) (by simp) h
        refine ⟨ha, ?_, ?_⟩
        · show i < (runTaskLoop gen verify rem (i + 1) (hp || gen (i + 1)) (some false)).2.1
          omega
        · show (runTaskLoop gen verify rem (i + 1) (hp || gen (i + 1)) (some false)).2.1 ≤
            i + (rem + 1)
          omega

/-- The loop body never records a terminal status. -/
theorem runTaskLoop_not_terminal (gen verify : Nat → Bool) :
    ∀ (rem i : Nat) (hp : Bool) (last : Option Bool),
      ∀ u ∈ (runTaskLoop gen verify rem i hp last).1, u.1.isTerminal = false := by
  intro rem
  induction rem with
  | zero => intro i hp last u hu; simp [runTaskLoop] at hu
  | succ rem ih =>
    intro i hp last u hu
    simp only [runTaskLoop] at hu
    by_cases hthrow : i + 1 ≠ 1 ∧ hp = false
    · rw [if_pos hthrow] at hu
      exact iterationPrefix_not_terminal _ u hu
    · rw [if_neg hthrow] at hu
      by_cases hv : verify (i + 1) = true
      · rw [if_pos hv] at hu
        exact iterBlock_not_terminal gen _ u hu
      · rw [if_neg hv] at hu
        rcases List.mem_append.mp hu with hu | hu
        · exact iterBlock_not_terminal gen _ u hu
        · exact ih _ _ _ u hu

/-- The first loop iteration, when the generator returns patches on
iteration 1. -/
theorem runTaskLoop_first_step (gen verify : Nat → Bool) (M : Nat)
    (hgen : gen 1 = true) :
    runTaskLoop gen verify (M + 1) 0 false none =
      if verify 1 then (iterBlock gen 1, 1, some true, false)
      else (iterBlock gen 1 ++ (runTaskLoop gen verify M 1 true (some false)).1,
            (runTaskLoop gen verify M 1 true (some false)).2.1,
            (runTaskLoop gen verify M 1 true (some false)).2.2.1,
            (runTaskLoop gen verify M 1 true (some false)).2.2.2) := by
  simp only [runTaskLoop, Nat.zero_add]
  rw [if_neg (by simp)]
  simp only [Bool.false_or, hgen]

theorem verificationCalls_not_testing (u : StatusUpdate) (l : List StatusUpdate)
    (h : u.1 ≠ TaskStatus.testing) :
    verificationCalls (u :: l) = verificationCalls l := by
  simp [verificationCalls, List.filter_cons, h]

/-! ## Theorems for the claims on the iteration loop -/

/-- Unfolding of `runTask` (its two `let` bindings zeta-reduced). -/
theorem runTask_eq_mk (N : Nat) (gen verify : Nat → Bool) :
    runTask N gen verify =
      ⟨((TaskStatus.planning, 0) :: (runTaskLoop gen verify N 0 false none).1) ++
          [((if (runTaskLoop gen verify N 0 false none).2.2.2 then TaskStatus.failed
             else if (runTaskLoop gen verify N 0 false none).2.2.1 = some true then
               TaskStatus.completed else TaskStatus.failed),
            (runTaskLoop gen verify N 0 false none).2.1)],
        (runTaskLoop gen verify N 0 false none).2.1,
        (if (runTaskLoop gen verify N 0 false none).2.2.2 then TaskStatus.failed
         else if (runTaskLoop gen verify N 0 false none).2.2.1 = some true then
           TaskStatus.completed else TaskStatus.failed)⟩ := rfl

/-- The final status written by `runTask` is terminal. -/
theorem runTask_final_terminal (N : Nat) (gen verify : Nat → Bool) :
    (runTask N gen verify).finalStatus.isTerminal = true := by
  rw [runTask_eq_mk]
  show TaskStatus.isTerminal (if _ then _ else _) = true
  split
  · rfl
  · split <;> rfl

/-- **C3**: with `maxIterations = N ≥ 1`, a generator that produces
patches on the first iteration, and a verifier that always fails,
`runTask` terminates after exactly `N` iterations — `finalIteration = N`
and exactly `N` verification calls — with final status `failed`.  (The
generator hypothesis is needed: a run whose generator never produces
patches aborts in iteration 2 with the `No previous test result or
patches to analyze` error.) -/
theorem runTask_allFail_budget (N : Nat) (gen : Nat → Bool)
    (hN : 1 ≤ N) (hgen : gen 1 = true) :
    (runTask N gen (fun _ => false)).finalIteration = N ∧
    verificationCalls (runTask N gen (fun _ => false)).trace = N ∧
    (runTask N gen (fun _ => false)).finalStatus = TaskStatus.failed := by
  obtain ⟨M, rfl⟩ : ∃ M, N = M + 1 := ⟨N - 1, by omega⟩
  have h0 := runTaskLoop_first_step gen (fun _ => false) M hgen
  rw [if_neg (by simp)] at h0
  have hA := runTaskLoop_allFail gen M 1
  rw [runTask_eq_mk, h0]
  refine ⟨?_, ?_, ?_⟩
  · show (runTaskLoop gen (fun _ => false) M 1 true (some false)).2.1 = M + 1
    omega
  · show verificationCalls (((TaskStatus.planning, 0) ::
        (iterBlock gen 1 ++ (runTaskLoop gen (fun _ => false) M 1 true (some false)).1)) ++ _) =
      M + 1
    rw [List.cons_append, verificationCalls_not_testing _ _ (by decide),
      verificationCalls_append, verificationCalls_append, verificationCalls_iterBlock,
      hA.2.2.2]
    simp only [hA.2.1, hA.2.2.1]
    simp [verificationCalls]
    omega
  · show (if _ then _ else _) = TaskStatus.failed
    simp only [hA.2.1, hA.2.2.1]
    simp

/-- **C4**: if the generator produces patches on iteration 1 and the
first passing verification is at iteration `k` with `1 ≤ k ≤ N`, the run
stops at iteration `k` with status `completed`, makes exactly `k`
verification calls, and records no update for any iteration beyond `k`;
and (the only success exit) any run that ends `completed` did so at an
iteration `1 ≤ fi ≤ N` whose verification passed. -/
theorem runTask_firstPass_completes (N k : Nat) (gen verify : Nat → Bool)
    (hgen : gen 1 = true) (hk1 : 1 ≤ k) (hkN : k ≤ N)
    (hpass : verify k = true)
    (hfirst : ∀ j, 1 ≤ j → j < k → verify j = false) :
    ((runTask N gen verify).finalStatus = TaskStatus.completed ∧
     (runTask N gen verify).finalIteration = k ∧
     verificationCalls (runTask N gen verify).trace = k ∧
     ∀ u ∈ (runTask N gen verify).trace, u.2 ≤ k) ∧
    ∀ (N' : Nat) (gen' verify' : Nat → Bool),
      (runTask N' gen' verify').finalStatus = TaskStatus.completed →
      1 ≤ (runTask N' gen' verify').finalIteration ∧
      (runTask N' gen' verify').finalIteration ≤ N' ∧
      verify' ((runTask N' gen' verify').finalIteration) = true := by
  constructor
  · obtain ⟨M, rfl⟩ : ∃ M, N = M + 1 := ⟨N - 1, by omega⟩
    have h0 := runTaskLoop_first_step gen verify M hgen
    by_cases hk : k = 1
    · subst hk
      rw [if_pos hpass] at h0
      rw [runTask_eq_mk, h0]
      refine ⟨by simp, by simp, ?_, ?_⟩
      · show verificationCalls (((TaskStatus.planning, 0) :: iterBlock gen 1) ++ _) = 1
        rw [List.cons_append, verificationCalls_not_testing _ _ (by decide),
          verificationCalls_append, verificationCalls_iterBlock]
        simp [verificationCalls]
      · intro u hu
        rcases List.mem_append.mp hu with hu | hu
        · rcases List.mem_cons.mp hu with hu | hu
          · simp [hu]
          · exact le_of_eq (iterBlock_snd gen _ u hu)
        · rw [List.mem_singleton] at hu
          simp [hu]
    · have hv1 : verify 1 = false := hfirst 1 le_rfl (by omega)
      rw [if_neg (by simp [hv1])] at h0
      have hF := runTaskLoop_firstPass gen verify M 1 k (by omega) (by omega) hpass
        (fun j hj1 hj2 => hfirst j (by omega) hj2)
      rw [runTask_eq_mk, h0]
      refine ⟨?_, ?_, ?_, ?_⟩
      · show (if _ then _ else _) = TaskStatus.completed
        simp only [hF.2.1, hF.2.2.1]
        simp
      · exact hF.1
      · show verificationCalls (((TaskStatus.planning, 0) ::
            (iterBlock gen 1 ++ (runTaskLoop gen verify M 1 true (some false)).1)) ++ _) = k
        rw [List.cons_append, verificationCalls_not_testing _ _ (by decide),
          verificationCalls_append, verificationCalls_append, verificationCalls_iterBlock,
          hF.2.2.2.1]
        simp only [hF.2.1, hF.2.2.1]
        simp [verificationCalls]
        omega
      · intro u hu
        rcases List.mem_append.mp hu with hu | hu
        · rcases List.mem_cons.mp hu with hu | hu
          · simp [hu]
          · rcases List.mem_append.mp hu with hu | hu
            · have := iterBlock_snd gen _ u hu; omega
            · exact hF.2.2.2.2 u hu
        · rw [List.mem_singleton] at hu
          subst hu
          simp [hF.1]
  · intro N' gen' verify' hc
    rw [runTask_eq_mk] at hc ⊢
    by_cases hthrew : (runTaskLoop gen' verify' N' 0 false none).2.2.2 = true
    · rw [if_pos hthrew] at hc
      exact absurd hc (by simp)
    · rw [if_neg hthrew] at hc
      by_cases hlast : (runTaskLoop gen' verify' N' 0 false none).2.2.1 = some true
      · obtain ⟨ha, hb, hc⟩ :=
          runTaskLoop_completed gen' verify' N' 0 false none (by simp) hlast
        refine ⟨?_, ?_, ha⟩
        · show 1 ≤ (runTaskLoop gen' verify' N' 0 false none).2.1
          omega
        · show (runTaskLoop gen' verify' N' 0 false none).2.1 ≤ N'
          omega
      · rw [if_neg hlast] at hc
        exact absurd hc (by simp)

/-- **C8**: a `Task` is created in status `pending`; every run records
exactly one terminal status, it is the last status update of the run,
and no update after it (there is none) nor before it is terminal. -/
theorem task_terminal_exactly_once (d rp : String) (m N : Nat)
    (gen verify : Nat → Bool) :
    (createTask d rp m).status = TaskStatus.pending ∧
    ((runTask N gen verify).trace.filter (fun u => u.1.isTerminal)).length = 1 ∧
    (runTask N gen verify).trace.getLast? =
      some ((runTask N gen verify).finalStatus, (runTask N gen verify).finalIteration) ∧
    (runTask N gen verify).finalStatus.isTerminal = true ∧
    ∀ u ∈ (runTask N gen verify).trace.dropLast, u.1.isTerminal = false := by
  refine ⟨rfl, ?_, ?_, runTask_final_terminal N gen verify, ?_⟩
  · rw [runTask_eq_mk]
    rw [List.filter_append]
    have h1 : ((TaskStatus.planning, 0) ::
        (runTaskLoop gen verify N 0 false none).1).filter (fun u => u.1.isTerminal) = [] := by
      rw [List.filter_eq_nil_iff]
      intro u hu
      rcases List.mem_cons.mp hu with hu | hu
      · rw [hu]; decide
      · simp [runTaskLoop_not_terminal gen verify N 0 false none u hu]
    rw [h1]
    have h2 := runTask_final_terminal N gen verify
    rw [runTask_eq_mk] at h2
    simp [List.filter_cons, h2]
  · rw [runTask_eq_mk]
    exact List.getLast?_concat _
  · rw [runTask_eq_mk]
    rw [List.dropLast_concat]
    intro u hu
    rcases List.mem_cons.mp hu with hu | hu
    · rw [hu]; rfl
    · exact runTaskLoop_not_terminal gen verify N 0 false none u hu

/-! ## The order of recorded status transitions (claim C2) -/

theorem iterationPrefix_map_fst_ne_one (i : Nat) (h : i ≠ 1) :
    (iterationPrefix i).map Prod.fst = [TaskStatus.fixing, TaskStatus.analyzing] := by
  unfold iterationPrefix
  rw [if_neg h]
  rfl

theorem iterationPrefix_ne_nil (i : Nat) : iterationPrefix i ≠ [] := by
  unfold iterationPrefix
  split <;> simp

theorem iterBlock_map_fst (gen : Nat → Bool) (i : Nat) :
    (iterBlock gen i).map Prod.fst =
      (if i = 1 then [TaskStatus.planning, TaskStatus.planning]
       else [TaskStatus.fixing, TaskStatus.analyzing]) ++
      (if gen i then [TaskStatus.generating] else []) ++ [TaskStatus.testing] := by
  unfold iterBlock iterationPrefix
  rcases gen i <;> split <;> simp

theorem iterBlock_ne_nil (gen : Nat → Bool) (i : Nat) : iterBlock gen i ≠ [] := by
  unfold iterBlock
  intro h
  exact iterationPrefix_ne_nil i (List.append_eq_nil.mp (List.append_eq_nil.mp h).1).1

theorem chain'_iterBlock (gen : Nat → Bool) (i : Nat) :
    List.Chain' (fun a b => recordedEdge a b = true) ((iterBlock gen i).map Prod.fst) := by
  rw [iterBlock_map_fst]
  by_cases hi : i = 1 <;> rcases hg : gen i <;>
    simp [hi, hg, List.chain'_cons, List.chain'_singleton] <;> decide

theorem iterBlock_map_fst_head (gen : Nat → Bool) (i : Nat) :
    ((iterBlock gen i).map Prod.fst).head? =
      some (if i = 1 then TaskStatus.planning else TaskStatus.fixing) := by
  rw [iterBlock_map_fst]
  split <;> rfl

theorem iterBlock_map_fst_getLast (gen : Nat → Bool) (i : Nat) :
    ((iterBlock gen i).map Prod.fst).getLast? = some TaskStatus.testing := by
  rw [iterBlock_map_fst]
  rcases gen i <;> split <;> rfl

/-- Every status trace the loop body records is a chain of
`recordedEdge` transitions, starts with `planning` (iteration 1) or
`fixing` (later iterations), ends with `analyzing` when the loop threw
and with `testing` otherwise, and is empty only for a zero remaining
budget (no throw, `lastTestResult` unchanged). -/
theorem runTaskLoop_chain (gen verify : Nat → Bool) :
    ∀ (rem i : Nat) (hp : Bool) (last : Option Bool),
      List.Chain' (fun a b => recordedEdge a b = true)
        ((runTaskLoop gen verify rem i hp last).1.map Prod.fst) ∧
      (∀ s, ((runTaskLoop gen verify rem i hp last).1.map Prod.fst).head? = some s →
        s = (if i + 1 = 1 then TaskStatus.planning else TaskStatus.fixing)) ∧
      ((runTaskLoop gen verify rem i hp last).2.2.2 = true →
        ((runTaskLoop gen verify rem i hp last).1.map Prod.fst).getLast? =
          some TaskStatus.analyzing) ∧
      ((runTaskLoop gen verify rem i hp last).2.2.2 = false →
        (runTaskLoop gen verify rem i hp last).1 = [] ∨
        ((runTaskLoop gen verify rem i hp last).1.map Prod.fst).getLast? =
          some TaskStatus.testing) ∧
      ((runTaskLoop gen verify rem i hp last).1 = [] →
        (runTaskLoop gen verify rem i hp last).2.2.1 = last ∧
        (runTaskLoop gen verify rem i hp last).2.2.2 = false) := by
  intro rem
  induction rem with
  | zero =>
    intro i hp last
    refine ⟨by simp [runTaskLoop], by simp [runTaskLoop], by simp [runTaskLoop],
      by simp [runTaskLoop], by simp [runTaskLoop]⟩
  | succ rem ih =>
    intro i hp last
    by_cases hthrow : i + 1 ≠ 1 ∧ hp = false
    · have e : runTaskLoop gen verify (rem + 1) i hp last =
          (iterationPrefix (i + 1), i + 1, last, true) := by
        simp only [runTaskLoop, if_pos hthrow]
      rw [e]
      refine ⟨?_, ?_, ?_, ?_, ?_⟩
      · show List.Chain' _ ((iterationPrefix (i + 1)).map Prod.fst)
        rw [iterationPrefix_map_fst_ne_one _ hthrow.1]
        exact List.chain'_cons.mpr ⟨by decide, List.chain'_singleton _⟩
      · show ∀ s, ((iterationPrefix (i + 1)).map Prod.fst).head? = some s → _
        rw [iterationPrefix_map_fst_ne_one _ hthrow.1, if_neg hthrow.1]
        intro s hs
        simpa using hs.symm
      · intro _
        show ((iterationPrefix (i + 1)).map Prod.fst).getLast? = _
        rw [iterationPrefix_map_fst_ne_one _ hthrow.1]
        rfl
      · intro h
        exact absurd h (by simp)
      · intro h
        exact absurd h (iterationPrefix_ne_nil _)
    · by_cases hv : verify (i + 1) = true
      · have e : runTaskLoop gen verify (rem + 1) i hp last =
            (iterBlock gen (i + 1), i + 1, some true, false) := by
          simp only [runTaskLoop, if_neg hthrow, if_pos hv]
        rw [e]
        refine ⟨chain'_iterBlock gen (i + 1), ?_, ?_, ?_, ?_⟩
        · intro s hs
          rw [iterBlock_map_fst_head] at hs
          simpa using hs.symm
        · intro h
          exact absurd h (by simp)
        · intro _
          exact Or.inr (iterBlock_map_fst_getLast gen (i + 1))
        · intro h
          exact absurd h (iterBlock_ne_nil gen (i + 1))
      · have e : runTaskLoop gen verify (rem + 1) i hp last =
            (iterBlock gen (i + 1) ++
              (runTaskLoop gen verify rem (i + 1) (hp || gen (i + 1)) (some false)).1,
             (runTaskLoop gen verify rem (i + 1) (hp || gen (i + 1)) (some false)).2.1,
             (runTaskLoop gen verify rem (i + 1) (hp || gen (i + 1)) (some false)).2.2.1,
             (runTaskLoop gen verify rem (i + 1) (hp || gen (i + 1)) (some false)).2.2.2) := by
          simp only [runTaskLoop, if_neg hthrow, if_neg hv]
        obtain ⟨ihc, ihh, ihta, ihtf, ihe⟩ := ih (i + 1) (hp || gen (i + 1)) (some false)
        rw [e]
        have hmap : (iterBlock gen (i + 1) ++
            (runTaskLoop gen verify rem (i + 1) (hp || gen (i + 1)) (some false)).1).map
              Prod.fst =
            (iterBlock gen (i + 1)).map Prod.fst ++
            ((runTaskLoop gen verify rem (i + 1) (hp || gen (i + 1)) (some false)).1).map
              Prod.fst := List.map_append _ _ _
        refine ⟨?_, ?_, ?_, ?_, ?_⟩
        · show List.Chain' _ _
          rw [hmap]
          refine List.Chain'.append (chain'_iterBlock gen (i + 1)) ihc ?_
          intro x hx y hy
          rw [iterBlock_map_fst_getLast] at hx
          have hx' : x = TaskStatus.testing := by simpa using hx.symm
          have hy' := ihh y (by simpa using hy)
          rw [if_neg (by omega)] at hy'
          rw [hx', hy']
          decide
        · intro s hs
          rw [hmap] at hs
          rcases hb : ((iterBlock gen (i + 1)).map Prod.fst) with _ | ⟨a, bs⟩
          · refine absurd (List.map_eq_nil_iff.mp hb) (iterBlock_ne_nil gen (i + 1))
          · rw [hb, List.cons_append, List.head?_cons] at hs
            have ha : a = (if i + 1 = 1 then TaskStatus.planning else TaskStatus.fixing) := by
              have hhd := iterBlock_map_fst_head gen (i + 1)
              rw [hb, List.head?_cons] at hhd
              simpa using hhd
            cases hs
            exact ha
        · intro ht
          have hg := ihta ht
          rw [hmap]
          rw [List.getLast?_append_of_ne_nil _ (by
            intro hnil
            rw [hnil] at hg
            simp at hg)]
          exact hg
        · intro ht
          rcases ihtf ht with hnil | hlast
          · right
            rw [hmap, hnil]
            simp only [List.map_nil, List.append_nil]
            exact iterBlock_map_fst_getLast gen (i + 1)
          · right
            rw [hmap]
            rw [List.getLast?_append_of_ne_nil _ (by
              intro hnil
              rw [hnil] at hlast
              simp at hlast)]
            exact hlast
        · intro h
          exact absurd (List.append_eq_nil.mp h).1 (iterBlock_ne_nil gen (i + 1))

/-- **C2** (amended): every consecutive pair of statuses recorded by a
run is an edge of the machine the code actually implements
(`recordedEdge`): in iterations after the first the loop records
`fixing`, then `analyzing`, then optionally `generating`, then
`testing` — not the `analyzing → fixing → testing` order of the
spec machine. -/
theorem runTask_trace_chain (N : Nat) (gen verify : Nat → Bool) :
    List.Chain' (fun a b => recordedEdge a b = true)
      ((runTask N gen verify).trace.map Prod.fst) := by
  obtain ⟨hc, hh, hta, htf, he⟩ := runTaskLoop_chain gen verify N 0 false none
  rw [runTask_eq_mk]
  show List.Chain' _ ((((TaskStatus.planning, 0) ::
    (runTaskLoop gen verify N 0 false none).1) ++ [_]).map Prod.fst)
  rw [List.cons_append, List.map_cons, List.map_append, List.chain'_cons']
  constructor
  · intro y hy
    rcases hS : ((runTaskLoop gen verify N 0 false none).1.map Prod.fst) with _ | ⟨a, S'⟩
    · rw [hS, List.nil_append] at hy
      have hnil : (runTaskLoop gen verify N 0 false none).1 = [] :=
        List.map_eq_nil_iff.mp hS
      obtain ⟨hlast, hthrew⟩ := he hnil
      simp only [List.map_cons, List.map_nil, List.head?_cons] at hy
      have hy' : y = (if (runTaskLoop gen verify N 0 false none).2.2.2 then
          TaskStatus.failed
        else if (runTaskLoop gen verify N 0 false none).2.2.1 = some true then
          TaskStatus.completed else TaskStatus.failed) := by simpa using hy.symm
      rw [hy', hthrew, hlast]
      simp [recordedEdge]
    · rw [hS, List.cons_append, List.head?_cons] at hy
      have ha := hh a (by rw [hS]; rfl)
      have ha' : a = TaskStatus.planning := by simpa using ha
      have hy' : y = a := by simpa using hy.symm
      rw [hy', ha']
      decide
  · refine List.Chain'.append hc (List.chain'_singleton _) ?_
    intro x hx y hy
    simp only [List.map_cons, List.map_nil, List.head?_cons] at hy
    have hy' : y = (if (runTaskLoop gen verify N 0 false none).2.2.2 then
        TaskStatus.failed
      else if (runTaskLoop gen verify N 0 false none).2.2.1 = some true then
        TaskStatus.completed else TaskStatus.failed) := by simpa using hy.symm
    by_cases ht : (runTaskLoop gen verify N 0 false none).2.2.2 = true
    · have hx' : x = TaskStatus.analyzing := by
        have hg := hta ht
        rw [hg] at hx
        simpa using hx.symm
      rw [hx', hy', if_pos ht]
      decide
    · have ht' : (runTaskLoop gen verify N 0 false none).2.2.2 = false := by
        simpa using ht
      rcases htf ht' with hnil | hlast
      · rw [List.map_eq_nil_iff.mpr hnil] at hx
        simp at hx
      · have hx' : x = TaskStatus.testing := by
          rw [hlast] at hx
          simpa using hx.symm
        rw [hx', hy', ht']
        simp only [Bool.false_eq_true, if_false]
        split <;> decide

/-- **C2** counterexample: in the concrete two-iteration run whose
generator always returns patches and whose verifier always fails, the
loop records `('fixing', 2)` immediately followed by `('analyzing', 2)`
— and neither `testing → fixing`, `fixing → analyzing` nor
`analyzing → generating` is an edge of the state machine of spec §4.4,
refuting both the claimed `analyzing → fixing → testing` order and the
claim that every recorded transition within an iteration is a spec
edge. -/
theorem runTask_fixing_before_analyzing_cex :
    (runTask 2 (fun _ => true) (fun _ => false)).trace =
      [(TaskStatus.planning, 0), (TaskStatus.planning, 1), (TaskStatus.planning, 1),
       (TaskStatus.generating, 1), (TaskStatus.testing, 1),
       (TaskStatus.fixing, 2), (TaskStatus.analyzing, 2),
       (TaskStatus.generating, 2), (TaskStatus.testing, 2),
       (TaskStatus.failed, 2)] ∧
    specEdge TaskStatus.testing TaskStatus.fixing = false ∧
    specEdge TaskStatus.fixing TaskStatus.analyzing = false ∧
    specEdge TaskStatus.analyzing TaskStatus.generating = false := by
  refine ⟨rfl, rfl, rfl, rfl⟩

/-! ## Theorems for the ChangeSet applier (claim C5) -/

/-- Lengths and per-path counts of the two result lists of
`applyPatches`: every input entry lands in exactly one list. -/
theorem applyPatchesFold_count {σ ε : Type} (step : σ → Patch → Except ε σ)
    (ps : List Patch) : ∀ s : σ,
    (applyPatchesFold step s ps).2.1.length + (applyPatchesFold step s ps).2.2.length =
      ps.length ∧
    ∀ f : String,
      (applyPatchesFold step s ps).2.1.count f + (applyPatchesFold step s ps).2.2.count f =
        (ps.map Patch.file).count f := by
  induction ps with
  | nil => intro s; simp [applyPatchesFold]
  | cons p ps ih =>
    intro s
    cases hstep : step s p with
    | ok s2 =>
      have h := ih s2
      simp only [applyPatchesFold, hstep]
      constructor
      · simp only [List.length_cons]
        omega
      · intro f
        have h2 := h.2 f
        simp only [List.map_cons, List.count_cons]
        split <;> omega
    | error e =>
      have h := ih s
      simp only [applyPatchesFold, hstep]
      constructor
      · simp only [List.length_cons]
        omega
      · intro f
        have h2 := h.2 f
        simp only [List.map_cons, List.count_cons]
        split <;> omega

/-- **C5**: `applyPatches` (here `applyPatchesFold`, the loop of
`patcher.ts` abstracted over the effect of one `applyPatchToFile` call,
which may throw) attempts every entry even if some fail: the two result
lists together have exactly as many entries as the input, every input
path lands in the lists exactly as often as it occurs in the input (so
one entry failing never prevents the remaining entries from being
attempted and bucketed), and for distinct input paths every path ends up
in exactly one of the two lists. -/
theorem applyPatchesFold_partition {σ ε : Type} (step : σ → Patch → Except ε σ)
    (s : σ) (ps : List Patch) :
    (applyPatchesFold step s ps).2.1.length + (applyPatchesFold step s ps).2.2.length =
      ps.length ∧
    (∀ f : String,
      (applyPatchesFold step s ps).2.1.count f + (applyPatchesFold step s ps).2.2.count f =
        (ps.map Patch.file).count f) ∧
    ((ps.map Patch.file).Nodup →
      ∀ p ∈ ps,
        (p.file ∈ (applyPatchesFold step s ps).2.1 ∧
          p.file ∉ (applyPatchesFold step s ps).2.2) ∨
        (p.file ∈ (applyPatchesFold step s ps).2.2 ∧
          p.file ∉ (applyPatchesFold step s ps).2.1)) := by
  obtain ⟨hlen, hcount⟩ := applyPatchesFold_count step ps s
  refine ⟨hlen, hcount, ?_⟩
  intro hnd p hp
  have hm : p.file ∈ ps.map Patch.file := List.mem_map_of_mem Patch.file hp
  have hone : (ps.map Patch.file).count p.file = 1 := List.count_eq_one_of_mem hnd hm
  have hc := hcount p.file
  rw [hone] at hc
  rcases Nat.eq_zero_or_pos ((applyPatchesFold step s ps).2.1.count p.file) with hz | hpos
  · right
    constructor
    · have : 0 < (applyPatchesFold step s ps).2.2.count p.file := by omega
      exact List.count_pos_iff.mp this
    · exact List.count_eq_zero.mp hz
  · left
    constructor
    · exact List.count_pos_iff.mp hpos
    · have : (applyPatchesFold step s ps).2.2.count p.file = 0 := by omega
      exact List.count_eq_zero.mp this

/-- Witness for `applyPatchesFold_partition`: a three-entry ChangeSet
whose middle entry throws yields `applied = [a, c]`, `failed = [b]`. -/
theorem applyPatchesFold_partition_witness :
    ((applyPatchesFold (fun (s : Unit) (p : Patch) =>
        if p.file = "b" then Except.error () else Except.ok s) ()
        [⟨"a", "d1"⟩, ⟨"b", "d2"⟩, ⟨"c", "d3"⟩]).2.1 = ["a", "c"] ∧
     (applyPatchesFold (fun (s : Unit) (p : Patch) =>
        if p.file = "b" then Except.error () else Except.ok s) ()
        [⟨"a", "d1"⟩, ⟨"b", "d2"⟩, ⟨"c", "d3"⟩]).2.2 = ["b"]) ∧
    2 + 1 = 3 ∧
    (("a" ∈ (["a", "c"] : List String) ∧ "a" ∉ (["b"] : List String)) ∨
     ("a" ∈ (["b"] : List String) ∧ "a" ∉ (["a", "c"] : List String))) := by
  have h := applyPatchesFold_partition (fun (s : Unit) (p : Patch) =>
      if p.file = "b" then Except.error () else Except.ok s) ()
      [⟨"a", "d1"⟩, ⟨"b", "d2"⟩, ⟨"c", "d3"⟩]
  refine ⟨⟨by decide, by decide⟩, by decide, ?_⟩
  have h3 := h.2.2 (by decide) ⟨"a", "d1"⟩ (by decide)
  exact h3

/-! ## Theorems for the verification-result interpreter (claims C6, C10) -/

/-- **C6**: the `passed` field of the result built in the `close`
handler of `runTests` equals the binary exit-success signal
(`code === 0`) and does not depend on the transcript — parsed counts
never override it. -/
theorem runTests_passed_eq_exit (stdout stderr stdout2 stderr2 : String) (code : Int) :
    ((runTestsOnClose stdout stderr code).passed = true ↔ code = 0) ∧
    (runTestsOnClose stdout stderr code).passed =
      (runTestsOnClose stdout2 stderr2 code).passed := by
  constructor
  · show (code == 0) = true ↔ code = 0
    exact beq_iff_eq
  · rfl

/-- **C10**: when no combined Jest summary line matches and no
`N total` substring matches, `parseJestOutput` reports
`total = passed + failed`; and when the `N passed` / `N failed`
substrings are also absent, the reported total is 0. -/
theorem parseJestOutput_total_fallback (output : String)
    (hsum : firstMatch matchSummaryAt output.toList = none)
    (htot : firstMatch (matchCountAt "total".toList) output.toList = none) :
    (parseJestOutput output).total =
      (parseJestOutput output).passed + (parseJestOutput output).failed ∧
    (firstMatch (matchCountAt "passed".toList) output.toList = none →
     firstMatch (matchCountAt "failed".toList) output.toList = none →
     (parseJestOutput output).total = 0) := by
  simp only [parseJestOutput, hsum, htot]
  refine ⟨trivial, fun hp hf => ?_⟩
  rw [hp, hf]
  rfl

/-- Witness for `parseJestOutput_total_fallback` at a transcript with no
recognizable counts. -/
theorem parseJestOutput_total_fallback_witness :
    (parseJestOutput "All good").total =
      (parseJestOutput "All good").passed + (parseJestOutput "All good").failed ∧
    (parseJestOutput "All good").total = 0 := by
  have h := parseJestOutput_total_fallback "All good" (by rfl) (by rfl)
  exact ⟨h.1, h.2 (by rfl) (by rfl)⟩

/-! ## Marker-free change text is a jsdiff no-op (claims C1, C7) -/

theorem stringMk_append (a b : List Char) :
    String.mk a ++ String.mk b = String.mk (a ++ b) := rfl

theorem mk_toList (c : String) : String.mk c.toList = c := rfl

theorem joinWithDelims_cons (a : String) (l : List String) (d : String)
    (ds : List String) (h : l ≠ []) :
    joinWithDelims (a :: l) (d :: ds) = a ++ d ++ joinWithDelims l ds := by
  rcases l with _ | ⟨b, l2⟩
  · exact absurd rfl h
  · rfl

/-- The jsdiff line/delimiter split is inverted by the delimiter-aware
rejoin (and the line list is never empty). -/
theorem splitDelimsAux_spec (cs acc : List Char) :
    (splitDelimsAux cs acc).1 ≠ [] ∧
    joinWithDelims (splitDelimsAux cs acc).1 (splitDelimsAux cs acc).2 =
      String.mk (acc.reverse ++ cs) := by
  induction cs, acc using splitDelimsAux.induct with
  | case1 acc =>
    refine ⟨by simp [splitDelimsAux], ?_⟩
    simp [splitDelimsAux, joinWithDelims]
  | case2 c acc h =>
    refine ⟨by simp [splitDelimsAux, h], ?_⟩
    simp only [splitDelimsAux, if_pos h]
    show String.mk acc.reverse ++ String.mk [c] ++ String.mk [] = _
    simp [stringMk_append]
  | case3 c acc h =>
    refine ⟨by simp [splitDelimsAux, h], ?_⟩
    simp only [splitDelimsAux, if_neg h]
    show String.mk (c :: acc).reverse = _
    simp
  | case4 c c2 rest acc h ih =>
    obtain ⟨hc, hc2⟩ : c = '\r' ∧ c2 = '\n' := by simpa using h
    subst hc; subst hc2
    constructor
    · simp [splitDelimsAux]
    · simp only [splitDelimsAux]
      rw [if_pos (by simp)]
      rw [joinWithDelims_cons _ _ _ _ ih.1, ih.2]
      show String.mk acc.reverse ++ String.mk ['\r', '\n'] ++
          String.mk (List.reverse [] ++ rest) = _
      rw [stringMk_append, stringMk_append]
      apply congrArg String.mk
      simp
  | case5 c c2 rest acc h h2 ih =>
    constructor
    · simp only [splitDelimsAux]
      rw [if_neg h, if_pos h2]
      simp
    · simp only [splitDelimsAux]
      rw [if_neg h, if_pos h2]
      rw [joinWithDelims_cons _ _ _ _ ih.1, ih.2]
      show String.mk acc.reverse ++ String.mk [c] ++
          String.mk (List.reverse [] ++ (c2 :: rest)) = _
      rw [stringMk_append, stringMk_append]
      apply congrArg String.mk
      simp
  | case6 c c2 rest acc h h2 ih =>
    constructor
    · simp only [splitDelimsAux]
      rw [if_neg h, if_neg h2]
      exact ih.1
    · simp only [splitDelimsAux]
      rw [if_neg h, if_neg h2, ih.2]
      simp

/-- Rejoining the jsdiff split of a string gives the string back. -/
theorem jsLines_join (c : String) :
    joinWithDelims (jsLines c) (jsDelims c) = c := by
  have h := (splitDelimsAux_spec c.toList []).2
  simpa [jsLines, jsDelims] using h

/-- jsdiff `applyPatch` with an empty hunk list returns the source
unchanged. -/
theorem applyPatchJs_no_hunks (c : String) : applyPatchJs c ⟨[]⟩ = some c := by
  show some (joinWithDelims (jsLines c) (jsDelims c)) = some c
  rw [jsLines_join]

/-- When no line is a `--- / +++ / @@` file-header line, the jsdiff
metadata loop consumes the whole input. -/
theorem skipMetadata_all (ls : List String) : ∀ ds : List String,
    (∀ l ∈ ls, isMetadataBreak l = false) → (skipMetadata ls ds).1 = [] := by
  induction ls with
  | nil => intro ds _; rfl
  | cons l ls ih =>
    intro ds h
    unfold skipMetadata
    rw [h l (by simp)]
    simp only [Bool.false_eq_true, if_false]
    exact ih _ (fun x hx => h x (by simp [hx]))

theorem parsePatchLoop_nil (n : Nat) (ds : List String) :
    parsePatchLoop n [] ds = .ok [] := by
  cases n <;> rfl

/-- `parseIndex` on marker-free input consumes everything and yields an
empty-hunks patch. -/
theorem parseIndexFn_no_marker (ls ds : List String)
    (h : ∀ l ∈ ls, isMetadataBreak l = false) :
    ∃ ds2, parseIndexFn ls ds = .ok (⟨[]⟩, [], ds2) := by
  rcases hsk : skipMetadata ls ds with ⟨a, b⟩
  have ha : a = [] := by
    have h2 := skipMetadata_all ls ds h
    rw [hsk] at h2
    exact h2
  subst ha
  refine ⟨b, ?_⟩
  unfold parseIndexFn
  rw [hsk]
  rfl

/-- jsdiff `parsePatch` on marker-free text returns a single patch with
no hunks (leading non-diff lines are consumed as diff metadata). -/
theorem parsePatchE_no_marker (t : String)
    (h : ∀ l ∈ jsLines t, isMetadataBreak l = false) :
    parsePatchE t = .ok [⟨[]⟩] ∨ parsePatchE t = .ok [] := by
  unfold parsePatchE
  rcases hL : jsLines t with _ | ⟨l, ls⟩
  · right
    rfl
  · left
    rw [hL] at h
    obtain ⟨ds2, hidx⟩ := parseIndexFn_no_marker (l :: ls) (jsDelims t) h
    rw [List.length_cons]
    unfold parsePatchLoop
    rw [hidx]
    simp only [parsePatchLoop_nil]

/-- `applyUnifiedDiff` on marker-free change text succeeds and returns
the original content unchanged (it never throws, so the
`extractNewContent` fallback of `applyPatchToFile` is unreachable for
such input). -/
theorem applyUnifiedDiffE_no_marker (c t : String)
    (h : ∀ l ∈ jsLines t, isMetadataBreak l = false) :
    applyUnifiedDiffE c t = .ok c := by
  unfold applyUnifiedDiffE
  rcases parsePatchE_no_marker t h with hp | hp <;> rw [hp]
  simp only [applyPatchJs_no_hunks]

/-- The `applyPatchToFile` content transformation is the identity on
marker-free change text. -/
theorem applyPatchToFileContent_no_marker (c t : String)
    (h : ∀ l ∈ jsLines t, isMetadataBreak l = false) :
    applyPatchToFileContent c t = c := by
  unfold applyPatchToFileContent
  rw [applyUnifiedDiffE_no_marker c t h]

/-- **C1** (code bug): for every prior content `c` and change text `t`
none of whose lines opens a diff header (`---`/`+++`/`@@` followed by
whitespace — in particular any marker-free `t` in the sense of the
claim), the patch engine returns `c` unchanged instead of the claimed
literal replacement: jsdiff `parsePatch` consumes marker-free text as
diff metadata and returns an empty patch, `applyPatch` applies it as a
no-op, so the raw-replacement branch of `extractNewContent` — which
would indeed return the fence-stripped change text, third conjunct — is
unreachable from `applyPatchToFile`.  Concretely, patching `"old\n"`
with `"new content"` writes `"old\n"`, not `"new content"`. -/
theorem patchEngine_marker_free_is_noop (c t : String)
    (h : ∀ l ∈ jsLines t, isMetadataBreak l = false) :
    applyPatchToFileContent c t = c ∧
    applyPatchToFileContent "old\n" "new content" = "old\n" ∧
    extractNewContent "new content" "old\n" = "new content" :=
  ⟨applyPatchToFileContent_no_marker c t h, by rfl, by rfl⟩

/-- Witness for `patchEngine_marker_free_is_noop`: marker-free
replacement text is silently dropped. -/
theorem patchEngine_marker_free_is_noop_witness :
    applyPatchToFileContent "old\n" "console.log(1)" = "old\n" :=
  (patchEngine_marker_free_is_noop "old\n" "console.log(1)" (by decide)).1

/-- **C7**: for change text from which no strategy can derive content —
marker-free text (including the empty string, whitespace or bare code
fences; by `applyUnifiedDiffE_no_marker` these are no-ops), or text with
diff markers on which `applyUnifiedDiff` throws while the line
reconstruction extracts nothing — the patch engine returns the prior
content `c` unchanged, for every `c` including the empty string, and
never replaces nonempty content with an empty result. -/
theorem patchEngine_unusable_is_noop (c t : String)
    (h : (∀ l ∈ jsLines t, isMetadataBreak l = false) ∨
      ((∃ e, applyUnifiedDiffE c t = Except.error e) ∧
       extractDiffLines (splitNl t) false = [] ∧
       (splitNl t).any hasDiffMarker = true)) :
    applyPatchToFileContent c t = c ∧
    (c ≠ "" → applyPatchToFileContent c t ≠ "") := by
  have main : applyPatchToFileContent c t = c := by
    rcases h with h | ⟨⟨e, he⟩, hext, hmark⟩
    · exact applyPatchToFileContent_no_marker c t h
    · unfold applyPatchToFileContent
      rw [he]
      simp only [extractNewContent, hmark, hext]
      rfl
  exact ⟨main, fun hc => by rw [main]; exact hc⟩

/-- Witness for `patchEngine_unusable_is_noop`: an unusable marker-bearing
diff (mismatching removal, nothing extractable) and the empty change
text both leave the file content unchanged. -/
theorem patchEngine_unusable_is_noop_witness :
    applyPatchToFileContent "old\n" "--- a/f\n+++ b/f\n@@ -1,1 +1,1 @@\n-X" = "old\n" ∧
    applyPatchToFileContent "keep\n" "" = "keep\n" :=
  ⟨(patchEngine_unusable_is_noop "old\n" "--- a/f\n+++ b/f\n@@ -1,1 +1,1 @@\n-X"
      (Or.inr ⟨⟨"Failed to apply patch - content mismatch", by rfl⟩,
        by decide, by decide⟩)).1,
   (patchEngine_unusable_is_noop "keep\n" "" (Or.inl (by decide))).1⟩

/-- Witness for `runTask_allFail_budget` at `N = 2`. -/
theorem runTask_allFail_budget_witness :
    (runTask 2 (fun _ => true) (fun _ => false)).finalIteration = 2 ∧
    verificationCalls (runTask 2 (fun _ => true) (fun _ => false)).trace = 2 ∧
    (runTask 2 (fun _ => true) (fun _ => false)).finalStatus = TaskStatus.failed :=
  runTask_allFail_budget 2 (fun _ => true) (by decide) (by rfl)

/-- Witness for `runTask_firstPass_completes`: `N = 3`, verification
first passes at iteration 2. -/
theorem runTask_firstPass_completes_witness :
    (runTask 3 (fun _ => true) (fun i => decide (i = 2))).finalStatus =
      TaskStatus.completed ∧
    (runTask 3 (fun _ => true) (fun i => decide (i = 2))).finalIteration = 2 := by
  have h := runTask_firstPass_completes 3 2 (fun _ => true) (fun i => decide (i = 2))
    (by rfl) (by decide) (by decide) (by decide)
    (fun j h1 h2 => by
      have hj : j = 1 := by omega
      subst hj
      rfl)
  exact ⟨h.1.1, h.1.2.1⟩

/-! ## Clean single-hunk diffs give the textbook result (claim C9) -/

theorem joinNl_cons (l : String) (rest : List String) (h : rest ≠ []) :
    joinNl (l :: rest) = l ++ "\n" ++ joinNl rest := by
  rcases rest with _ | ⟨b, r⟩
  · exact absurd rfl h
  · rfl

theorem joinWithDelims_all_nl : ∀ (L D : List String),
    (∀ d ∈ D, d = "\n") → L.length ≤ D.length + 1 →
    joinWithDelims L D = joinNl L := by
  intro L
  induction L with
  | nil => intro D _ _; rfl
  | cons l rest ih =>
    intro D hD hlen
    rcases rest with _ | ⟨b, r⟩
    · rfl
    · rcases D with _ | ⟨d, D2⟩
      · simp at hlen
      · rw [joinWithDelims_cons _ _ _ _ (by simp), joinNl_cons _ _ (by simp),
          hD d (by simp), ih D2 (fun x hx => hD x (by simp [hx])) (by simpa using hlen)]

theorem oldSide_cons_keep (l : String) (rest : List String)
    (h : l.toList.headD ' ' = ' ' ∨ l.toList.headD ' ' = '-') :
    oldSide (l :: rest) = sDrop l 1 :: oldSide rest := by
  unfold oldSide
  rw [List.filterMap_cons, if_pos h]

theorem oldSide_cons_skip (l : String) (rest : List String)
    (h : l.toList.headD ' ' = '+') :
    oldSide (l :: rest) = oldSide rest := by
  unfold oldSide
  rw [List.filterMap_cons, if_neg (by rw [h]; decide)]

theorem newSide_cons_keep (l : String) (rest : List String)
    (h : l.toList.headD ' ' = ' ' ∨ l.toList.headD ' ' = '+') :
    newSide (l :: rest) = sDrop l 1 :: newSide rest := by
  unfold newSide
  rw [List.filterMap_cons, if_pos h]

theorem newSide_cons_skip (l : String) (rest : List String)
    (h : l.toList.headD ' ' = '-') :
    newSide (l :: rest) = newSide rest := by
  unfold newSide
  rw [List.filterMap_cons, if_neg (by rw [h]; decide)]

theorem jsSpliceIndex_append (A T : List String) :
    jsSpliceIndex (A ++ T).length (A.length : Int) = A.length := by
  unfold jsSpliceIndex
  rw [if_neg (by omega)]
  simp [List.length_append]

theorem jsSpliceRemove_at (A : List String) (x : String) (T : List String) :
    jsSpliceRemove (A ++ x :: T) (A.length : Int) = A ++ T := by
  unfold jsSpliceRemove
  rw [show (A ++ x :: T) = A ++ ([x] ++ T) from by simp]
  rw [jsSpliceIndex_append A ([x] ++ T)]
  show List.take A.length (A ++ ([x] ++ T)) ++
    List.drop (A.length + 1) (A ++ ([x] ++ T)) = A ++ T
  rw [List.take_left' rfl]
  have hd : List.drop (A.length + 1) (A ++ ([x] ++ T)) = T := by
    rw [show A ++ ([x] ++ T) = (A ++ [x]) ++ T from by simp]
    exact List.drop_left' (by simp)
  rw [hd]

theorem jsSpliceInsert_at (A T : List String) (x : String) :
    jsSpliceInsert (A ++ T) (A.length : Int) x = A ++ x :: T := by
  unfold jsSpliceInsert
  rw [jsSpliceIndex_append A T]
  show List.take A.length (A ++ T) ++ x :: List.drop A.length (A ++ T) = A ++ x :: T
  rw [List.take_left' rfl, List.drop_left' rfl]

theorem jsSpliceRemove_subset (D : List String) (p : Int) :
    ∀ d ∈ jsSpliceRemove D p, d ∈ D := by
  intro d hd
  unfold jsSpliceRemove at hd
  rcases List.mem_append.mp hd with h | h
  · exact List.mem_of_mem_take h
  · exact List.mem_of_mem_drop h

theorem jsSpliceRemove_length (D : List String) (p : Int) :
    D.length - 1 ≤ (jsSpliceRemove D p).length := by
  unfold jsSpliceRemove
  simp [List.length_take, List.length_drop]
  omega

theorem jsSpliceInsert_mem (D : List String) (p : Int) (x : String) :
    ∀ d ∈ jsSpliceInsert D p x, d = x ∨ d ∈ D := by
  intro d hd
  unfold jsSpliceInsert at hd
  rcases List.mem_append.mp hd with h | h
  · exact Or.inr (List.mem_of_mem_take h)
  · rcases List.mem_cons.mp h with h | h
    · exact Or.inl h
    · exact Or.inr (List.mem_of_mem_drop h)

theorem jsSpliceInsert_length (D : List String) (p : Int) (x : String) :
    (jsSpliceInsert D p x).length = D.length + 1 := by
  unfold jsSpliceInsert jsSpliceIndex
  split
  · simp [List.length_take, List.length_drop]
    omega
  · simp [List.length_take, List.length_drop]
    omega

theorem singleDelim_clean_eq_nl (c : Char) (h1 : isSingleDelim c = true)
    (h2 : c ≠ '\r' ∧ c ≠ '\x0b' ∧ c ≠ '\x0c' ∧ c ≠ '\u0085') : c = '\n' := by
  unfold isSingleDelim at h1
  simp only [Bool.or_eq_true, decide_eq_true_eq] at h1
  rcases h1 with ((((h | h) | h) | h) | h)
  · exact h
  · exact absurd h h2.2.1
  · exact absurd h h2.2.2.1
  · exact absurd h h2.1
  · exact absurd h h2.2.2.2

/-- On a string free of `\r`, `\v`, `\f` and `U+0085`, every jsdiff
delimiter is `"\n"` and there is one delimiter less than there are
lines. -/
theorem splitDelimsAux_delims_nl : ∀ (cs acc : List Char),
    (∀ ch ∈ cs, ch ≠ '\r' ∧ ch ≠ '\x0b' ∧ ch ≠ '\x0c' ∧ ch ≠ '\u0085') →
    (∀ d ∈ (splitDelimsAux cs acc).2, d = "\n") ∧
    (splitDelimsAux cs acc).2.length + 1 = (splitDelimsAux cs acc).1.length := by
  intro cs acc
  induction cs, acc using splitDelimsAux.induct with
  | case1 acc =>
    intro _
    simp [splitDelimsAux]
  | case2 c acc hc =>
    intro h
    have hcn : c = '\n' := singleDelim_clean_eq_nl c hc (h c (by simp))
    subst hcn
    have e : splitDelimsAux ['\n'] acc = ([String.mk acc.reverse, ""], ["\n"]) := rfl
    rw [e]
    constructor
    · intro d hd
      simpa using hd
    · rfl
  | case3 c acc hc =>
    intro _
    have e : splitDelimsAux [c] acc = ([String.mk (c :: acc).reverse], []) := by
      simp only [splitDelimsAux]
      rw [if_neg hc]
    rw [e]
    constructor
    · intro d hd
      simp at hd
    · rfl
  | case4 c c2 rest acc hcond ih =>
    intro h
    obtain ⟨hc, _⟩ : c = '\r' ∧ c2 = '\n' := by simpa using hcond
    exact absurd hc (h c (by simp)).1
  | case5 c c2 rest acc hcond hc ih =>
    intro h
    have hcn : c = '\n' := singleDelim_clean_eq_nl c hc (h c (by simp))
    have ih2 := ih (fun ch hch => h ch (by simp [hch]))
    subst hcn
    have e : splitDelimsAux ('\n' :: c2 :: rest) acc =
        (String.mk acc.reverse :: (splitDelimsAux (c2 :: rest) []).1,
         "\n" :: (splitDelimsAux (c2 :: rest) []).2) := by
      simp only [splitDelimsAux]
      rw [if_neg hcond, if_pos hc]
    rw [e]
    constructor
    · intro d hd
      rcases List.mem_cons.mp hd with hd | hd
      · exact hd
      · exact ih2.1 d hd
    · have h2 := ih2.2
      simp only [List.length_cons]
      omega
  | case6 c c2 rest acc hcond hc ih =>
    intro h
    have ih2 := ih (fun ch hch => h ch (by simp [hch]))
    have e : splitDelimsAux (c :: c2 :: rest) acc =
        splitDelimsAux (c2 :: rest) (c :: acc) := by
      simp only [splitDelimsAux]
      rw [if_neg hcond, if_neg hc]
    rw [e]
    exact ih2

/-- Delimiters of a `\r`/`\v`/`\f`/`U+0085`-free string. -/
theorem jsDelims_clean (c : String)
    (h : ∀ ch ∈ c.toList, ch ≠ '\r' ∧ ch ≠ '\x0b' ∧ ch ≠ '\x0c' ∧ ch ≠ '\u0085') :
    (∀ d ∈ jsDelims c, d = "\n") ∧ (jsDelims c).length + 1 = (jsLines c).length :=
  splitDelimsAux_delims_nl c.toList [] h

theorem lineAt_append (A : List String) (x : String) (T : List String) :
    lineAt (A ++ x :: T) (A.length : Int) = some x := by
  unfold lineAt
  rw [if_neg (by omega)]
  simp only [Int.toNat_natCast]
  rw [List.get?_append_right (le_refl A.length)]
  simp

/-- A hunk whose old side sits at position `A.length` of the line list
fits there. -/
theorem hunkFits_of_decomp : ∀ (hl A Z : List String),
    (∀ l ∈ hl, goodHunkLine l = true) →
    hunkFits (A ++ oldSide hl ++ Z) hl (A.length : Int) = true := by
  intro hl
  induction hl with
  | nil => intro A Z _; rfl
  | cons l rest ih =>
    intro A Z hg
    obtain ⟨hne, hop⟩ : l ≠ "" ∧ ((l.toList.headD ' ' = ' ' ∨ l.toList.headD ' ' = '-') ∨
        l.toList.headD ' ' = '+') := by
      have := hg l (by simp)
      simpa [goodHunkLine] using this
    by_cases hkeep : l.toList.headD ' ' = ' ' ∨ l.toList.headD ' ' = '-'
    · rw [oldSide_cons_keep l rest hkeep]
      show hunkFits _ (l :: rest) _ = true
      unfold hunkFits
      rw [if_pos hkeep]
      rw [show A ++ (sDrop l 1 :: oldSide rest) ++ Z =
        A ++ sDrop l 1 :: (oldSide rest ++ Z) from by simp]
      rw [lineAt_append]
      simp only [decide_eq_true_eq]
      rw [decide_True, Bool.true_and]
      have e2 : A ++ sDrop l 1 :: (oldSide rest ++ Z) =
          (A ++ [sDrop l 1]) ++ oldSide rest ++ Z := by simp
      have e3 : (A.length : Int) + 1 = ((A ++ [sDrop l 1]).length : Int) := by
        simp
      rw [e2, e3]
      exact ih (A ++ [sDrop l 1]) Z (fun x hx => hg x (by simp [hx]))
    · have hpl : l.toList.headD ' ' = '+' := by tauto
      rw [oldSide_cons_skip l rest hpl]
      show hunkFits _ (l :: rest) _ = true
      unfold hunkFits
      rw [if_neg hkeep]
      exact ih A Z (fun x hx => hg x (by simp [hx]))

/-- One step of the body loop on a context line. -/
theorem applyHunkBody_cons_space (lines delims : List String) (toPos : Int)
    (r a : Bool) (prev : Option Char) (l d : String) (rest : List (String × String))
    (h : l.toList.headD ' ' = ' ') :
    applyHunkBody lines delims toPos r a prev ((l, d) :: rest) =
      applyHunkBody lines delims (toPos + 1) r a
        (if l = "" then none else some (l.toList.headD ' ')) rest := by
  simp only [applyHunkBody]
  rw [if_pos h]

/-- One step of the body loop on a removed line. -/
theorem applyHunkBody_cons_minus (lines delims : List String) (toPos : Int)
    (r a : Bool) (prev : Option Char) (l d : String) (rest : List (String × String))
    (h : l.toList.headD ' ' = '-') :
    applyHunkBody lines delims toPos r a prev ((l, d) :: rest) =
      applyHunkBody (jsSpliceRemove lines toPos) (jsSpliceRemove delims toPos)
        toPos r a (if l = "" then none else some (l.toList.headD ' ')) rest := by
  have h1 : ¬(l.toList.headD ' ' = ' ') := by rw [h]; decide
  simp only [applyHunkBody]
  rw [if_neg h1, if_pos h]

/-- One step of the body loop on an added line. -/
theorem applyHunkBody_cons_plus (lines delims : List String) (toPos : Int)
    (r a : Bool) (prev : Option Char) (l d : String) (rest : List (String × String))
    (h : l.toList.headD ' ' = '+') :
    applyHunkBody lines delims toPos r a prev ((l, d) :: rest) =
      applyHunkBody (jsSpliceInsert lines toPos (sDrop l 1))
        (jsSpliceInsert delims toPos d) (toPos + 1) r a
        (if l = "" then none else some (l.toList.headD ' ')) rest := by
  have h1 : ¬(l.toList.headD ' ' = ' ') := by rw [h]; decide
  have h2 : ¬(l.toList.headD ' ' = '-') := by rw [h]; decide
  simp only [applyHunkBody]
  rw [if_neg h1, if_neg h2, if_pos h]

/-- Running the body loop over plain hunk lines at position `A.length` of
a line list `A ++ old side ++ Z` replaces the old side by the new side,
leaves both EOFNL flags false, and keeps every delimiter `"\n"` with
enough delimiters for the resulting lines. -/
theorem applyHunkBody_spec : ∀ (ps : List (String × String)) (A Z D : List String)
    (prev : Option Char),
    (∀ p ∈ ps, goodHunkLine p.1 = true ∧ p.2 = "\n") →
    (∀ d ∈ D, d = "\n") →
    A.length + (oldSide (ps.map Prod.fst)).length + Z.length ≤ D.length + 1 →
    ∃ D2, applyHunkBody (A ++ oldSide (ps.map Prod.fst) ++ Z) D (A.length : Int)
        false false prev ps =
      (A ++ newSide (ps.map Prod.fst) ++ Z, D2, false, false) ∧
      (∀ d ∈ D2, d = "\n") ∧
      A.length + (newSide (ps.map Prod.fst)).length + Z.length ≤ D2.length + 1 := by
  intro ps
  induction ps with
  | nil =>
    intro A Z D prev _ hD hlen
    exact ⟨D, rfl, hD, hlen⟩
  | cons p rest ih =>
    intro A Z D prev hg hD hlen
    obtain ⟨l, d⟩ := p
    obtain ⟨hgl, hdl⟩ := hg (l, d) (by simp)
    obtain ⟨hne, hop⟩ : l ≠ "" ∧ ((l.toList.headD ' ' = ' ' ∨ l.toList.headD ' ' = '-') ∨
        l.toList.headD ' ' = '+') := by simpa [goodHunkLine] using hgl
    have hg2 : ∀ p ∈ rest, goodHunkLine p.1 = true ∧ p.2 = "\n" :=
      fun p hp => hg p (by simp [hp])
    have hme : ((l, d) :: rest).map Prod.fst = l :: rest.map Prod.fst := rfl
    rcases hop with (hsp | hm) | hpl
    · rw [hme, oldSide_cons_keep l _ (Or.inl hsp), newSide_cons_keep l _ (Or.inl hsp),
        applyHunkBody_cons_space _ _ _ _ _ _ _ _ _ hsp]
      have hre : A ++ (sDrop l 1 :: oldSide (rest.map Prod.fst)) ++ Z =
          (A ++ [sDrop l 1]) ++ oldSide (rest.map Prod.fst) ++ Z := by simp
      have hre2 : ((A.length : Int) + 1) = (((A ++ [sDrop l 1]).length : Int)) := by
        simp
      rw [hre, hre2]
      obtain ⟨D2, he, hD2, hlen2⟩ := ih (A ++ [sDrop l 1]) Z D
        (if l = "" then none else some (l.toList.headD ' ')) hg2 hD (by
          rw [hme, oldSide_cons_keep l _ (Or.inl hsp)] at hlen
          simp only [List.length_append, List.length_cons] at hlen ⊢
          simp
          omega)
      refine ⟨D2, ?_, hD2, ?_⟩
      · rw [he]
        simp
      · simp only [List.length_append, List.length_cons] at hlen2 ⊢
        simp at hlen2 ⊢
        omega
    · rw [hme, oldSide_cons_keep l _ (Or.inr hm), newSide_cons_skip l _ hm,
        applyHunkBody_cons_minus _ _ _ _ _ _ _ _ _ hm]
      have hrm : jsSpliceRemove (A ++ (sDrop l 1 :: oldSide (rest.map Prod.fst)) ++ Z)
          (A.length : Int) = A ++ oldSide (rest.map Prod.fst) ++ Z := by
        rw [show A ++ (sDrop l 1 :: oldSide (rest.map Prod.fst)) ++ Z =
          A ++ sDrop l 1 :: (oldSide (rest.map Prod.fst) ++ Z) from by simp,
          jsSpliceRemove_at]
        simp
      rw [hrm]
      obtain ⟨D2, he, hD2, hlen2⟩ := ih A Z (jsSpliceRemove D (A.length : Int))
        (if l = "" then none else some (l.toList.headD ' ')) hg2
        (fun x hx => hD x (jsSpliceRemove_subset D _ x hx))
        (by
          have hrl := jsSpliceRemove_length D (A.length : Int)
          rw [hme, oldSide_cons_keep l _ (Or.inr hm)] at hlen
          simp only [List.length_cons] at hlen
          omega)
      exact ⟨D2, he, hD2, hlen2⟩
    · rw [hme, oldSide_cons_skip l _ hpl, newSide_cons_keep l _ (Or.inr hpl),
        applyHunkBody_cons_plus _ _ _ _ _ _ _ _ _ hpl]
      have hri : jsSpliceInsert (A ++ oldSide (rest.map Prod.fst) ++ Z) (A.length : Int)
          (sDrop l 1) = (A ++ [sDrop l 1]) ++ oldSide (rest.map Prod.fst) ++ Z := by
        rw [show A ++ oldSide (rest.map Prod.fst) ++ Z =
          A ++ (oldSide (rest.map Prod.fst) ++ Z) from by simp, jsSpliceInsert_at]
        simp
      have hdl2 : d = "\n" := hdl
      rw [hri, hdl2,
        show ((A.length : Int) + 1) = (((A ++ [sDrop l 1]).length : Int)) from by simp]
      obtain ⟨D2, he, hD2, hlen2⟩ := ih (A ++ [sDrop l 1]) Z
        (jsSpliceInsert D (A.length : Int) "\n")
        (if l = "" then none else some (l.toList.headD ' ')) hg2
        (fun x hx => by
          rcases jsSpliceInsert_mem D _ _ x hx with h | h
          · exact h
          · exact hD x h)
        (by
          have hil := jsSpliceInsert_length D (A.length : Int) "\n"
          rw [hme, oldSide_cons_skip l _ hpl] at hlen
          simp only [List.length_append, List.length_cons, List.length_nil]
          omega)
      refine ⟨D2, ?_, hD2, ?_⟩
      · rw [he]
        simp
      · simp only [List.length_append, List.length_cons] at hlen2 ⊢
        simp at hlen2 ⊢
        omega

/-- On a delimiter-clean source whose line list decomposes as `A`, then
the hunk's old side, then `Z`, with the hunk's stated start naming
exactly position `A.length`, jsdiff's `applyPatch` on the single-hunk
patch succeeds and returns the lines with the old side replaced by the
new side, rejoined by newlines. -/
theorem applyPatchJs_single_clean (c : String) (hk : Hunk) (A Z : List String)
    (hgood : ∀ l ∈ hk.lines, goodHunkLine l = true)
    (hdel : ∀ dl ∈ hk.linedelimiters, dl = "\n")
    (hdlen : hk.lines.length ≤ hk.linedelimiters.length)
    (hsplit : jsLines c = A ++ oldSide hk.lines ++ Z)
    (hpos : hk.oldStart = (A.length : Int) + 1)
    (hclean : ∀ ch ∈ c.toList, ch ≠ '\r' ∧ ch ≠ '\x0b' ∧ ch ≠ '\x0c' ∧ ch ≠ '\u0085') :
    applyPatchJs c ⟨[hk]⟩ = some (joinNl (A ++ newSide hk.lines ++ Z)) := by
  have hdc := jsDelims_clean c hclean
  have hfits : hunkFits (jsLines c) hk.lines ((0 : Int) + hk.oldStart - 1 + 0) = true := by
    rw [hsplit, show (0 : Int) + hk.oldStart - 1 + 0 = (A.length : Int) from by
      rw [hpos]; ring]
    exact hunkFits_of_decomp hk.lines A Z hgood
  have hfind : ∀ cands : List Int, List.find?
      (fun lo => hunkFits (jsLines c) hk.lines ((0 : Int) + hk.oldStart - 1 + lo))
      (0 :: cands) = some 0 := by
    intro cands
    simp only [List.find?]
    rw [hfits]
  have hoffs : findHunkOffsets (jsLines c) [hk] 0 0 = some [(hk, 0)] := by
    simp only [findHunkOffsets]
    rw [hfind]
    rfl
  have hzf : (hk.lines.zip hk.linedelimiters).map Prod.fst = hk.lines :=
    List.map_fst_zip _ _ hdlen
  have hpairs : ∀ p ∈ hk.lines.zip hk.linedelimiters,
      goodHunkLine p.1 = true ∧ p.2 = "\n" := by
    intro p hp
    obtain ⟨x, y⟩ := p
    exact ⟨hgood x (List.of_mem_zip hp).1, hdel y (List.of_mem_zip hp).2⟩
  have hlen0 : A.length + (oldSide hk.lines).length + Z.length ≤
      (jsDelims c).length + 1 := by
    have h2 := hdc.2
    rw [hsplit] at h2
    simp only [List.length_append] at h2
    omega
  obtain ⟨D2, hbody, hD2, hlen2⟩ := applyHunkBody_spec
    (hk.lines.zip hk.linedelimiters) A Z (jsDelims c) none hpairs hdc.1
    (by rw [hzf]; exact hlen0)
  rw [hzf] at hbody hlen2
  have hloop : applyHunksLoop [(hk, 0)] 0 (jsLines c) (jsDelims c) false false =
      (A ++ newSide hk.lines ++ Z, D2, false, false) := by
    simp only [applyHunksLoop]
    rw [show hk.oldStart + 0 + 0 - 1 = (A.length : Int) from by rw [hpos]; ring,
      hsplit, hbody]
  have hjoin : joinWithDelims (A ++ newSide hk.lines ++ Z) D2 =
      joinNl (A ++ newSide hk.lines ++ Z) := by
    apply joinWithDelims_all_nl _ _ hD2
    simp only [List.length_append]
    omega
  have e1 : applyPatchJs c ⟨[hk]⟩ =
      match findHunkOffsets (jsLines c) [hk] 0 0 with
      | none => none
      | some hoffs =>
        let r := applyHunksLoop hoffs 0 (jsLines c) (jsDelims c) false false
        let fin :=
          if r.2.2.1 then popTrailingEmpties r.1 r.2.1
          else if r.2.2.2 then (r.1 ++ [""], r.2.1 ++ ["\n"])
          else (r.1, r.2.1)
        some (joinWithDelims fin.1 fin.2) := rfl
  rw [e1]
  simp only [hoffs]
  rw [hloop]
  show some (joinWithDelims (A ++ newSide hk.lines ++ Z) D2) =
    some (joinNl (A ++ newSide hk.lines ++ Z))
  rw [hjoin]

/-- C9: On a well-formed unified diff that parses to a single hunk whose
context and removed lines match the prior content at the stated position
(the file's line list splits as `A ++ old side ++ Z` with the hunk's
`oldStart` naming position `A.length + 1`), with plain body lines,
newline delimiters throughout and a delimiter-clean source,
`applyUnifiedDiff` succeeds and returns exactly the textbook result:
lines before the hunk, then the hunk's new side (context and added
lines), then the lines after the replaced span, joined by newlines —
deleted lines removed and added lines inserted at the stated offsets.
In particular, in the spec's concrete scenario, applying the diff
`--- a/f\n+++ b/f\n@@ -1,1 +1,1 @@\n-old\n+new\n` to a file containing
`old\n` yields exactly `new\n`. -/
theorem patchEngine_clean_diff_textbook (c d : String) (hk : Hunk) (A Z : List String)
    (hparse : parsePatchE d = .ok [⟨[hk]⟩])
    (hgood : ∀ l ∈ hk.lines, goodHunkLine l = true)
    (hdel : ∀ dl ∈ hk.linedelimiters, dl = "\n")
    (hdlen : hk.lines.length ≤ hk.linedelimiters.length)
    (hsplit : jsLines c = A ++ oldSide hk.lines ++ Z)
    (hpos : hk.oldStart = (A.length : Int) + 1)
    (hclean : ∀ ch ∈ c.toList, ch ≠ '\r' ∧ ch ≠ '\x0b' ∧ ch ≠ '\x0c' ∧ ch ≠ '\u0085') :
    applyUnifiedDiffE c d = .ok (textbookApply c hk.oldStart.toNat hk.lines) ∧
    applyPatchToFileContent "old\n" "--- a/f\n+++ b/f\n@@ -1,1 +1,1 @@\n-old\n+new\n" =
      "new\n" := by
  constructor
  · have hap := applyPatchJs_single_clean c hk A Z hgood hdel hdlen hsplit hpos hclean
    have htb : textbookApply c hk.oldStart.toNat hk.lines =
        joinNl (A ++ newSide hk.lines ++ Z) := by
      unfold textbookApply
      show joinNl (List.take (hk.oldStart.toNat - 1) (jsLines c) ++ newSide hk.lines ++
        List.drop (hk.oldStart.toNat - 1 + (oldSide hk.lines).length) (jsLines c)) =
        joinNl (A ++ newSide hk.lines ++ Z)
      have h1 : hk.oldStart.toNat - 1 = A.length := by omega
      have h2 : List.take A.length (A ++ oldSide hk.lines ++ Z) = A := by
        rw [show A ++ oldSide hk.lines ++ Z = A ++ (oldSide hk.lines ++ Z) from by simp]
        exact List.take_left' rfl
      have h3 : List.drop (A.length + (oldSide hk.lines).length)
          (A ++ oldSide hk.lines ++ Z) = Z :=
        List.drop_left' (by simp)
      rw [hsplit, h1, h2, h3]
    have e2 : applyUnifiedDiffE c d =
        match parsePatchE d with
        | .error e => .error e
        | .ok [] => .ok c
        | .ok (p :: _) =>
          match applyPatchJs c p with
          | none => .error "Failed to apply patch - content mismatch"
          | some r => .ok r := rfl
    rw [e2]
    simp only [hparse]
    rw [htb]
    simp only [hap]
  · rfl

/-- Concrete instantiation of the clean-diff theorem: the spec's scenario
diff on the one-line file, with its parsed hunk spelled out. -/
theorem patchEngine_clean_diff_textbook_witness :
    applyUnifiedDiffE "old\n" "--- a/f\n+++ b/f\n@@ -1,1 +1,1 @@\n-old\n+new\n" =
      .ok (textbookApply "old\n" 1 ["-old", "+new"]) ∧
    applyPatchToFileContent "old\n" "--- a/f\n+++ b/f\n@@ -1,1 +1,1 @@\n-old\n+new\n" =
      "new\n" :=
  patchEngine_clean_diff_textbook "old\n"
    "--- a/f\n+++ b/f\n@@ -1,1 +1,1 @@\n-old\n+new\n"
    ⟨1, 1, 1, 1, ["-old", "+new"], ["\n", "\n"]⟩ [] [""]
    (by rfl) (by decide) (by decide) (by decide) (by rfl) (by decide) (by decide)

end VibeCI
